/-
  Verification of the subtitle-batch-translation pipeline
  (src/Workflow/example.py) against its natural-language specification.

  Strings are modelled as `List Char`; every Python string primitive the
  program uses (strip, split, replace, regular-expression matching) is
  given an explicit executable definition mirroring CPython semantics on
  the character set the program manipulates.
-/
import Mathlib

namespace Serve3

/-! ## Python string primitives -/

/-- Python whitespace characters (`str.strip()` default set and the `\s`
regular-expression class, ASCII range). -/
def isPySpace (c : Char) : Bool :=
  c = ' ' || c = '\t' || c = '\n' || c = '\r' || c = '\x0B' || c = '\x0C'

/-- Left strip: drop leading Python whitespace. -/
def sLeft (l : List Char) : List Char := l.dropWhile isPySpace

/-- Right strip: drop trailing Python whitespace. -/
def sRight (l : List Char) : List Char := (l.reverse.dropWhile isPySpace).reverse

/-- Python `str.strip()`. -/
def pyStrip (l : List Char) : List Char := sRight (sLeft l)

/-- Python `str.split(sep)` for a one-character separator: `"".split` on an
empty string yields `[""]`, which matches the `[[]]` base case. -/
def splitOnChar (c : Char) : List Char → List (List Char)
  | [] => [[]]
  | x :: xs =>
    if x = c then [] :: splitOnChar c xs
    else
      match splitOnChar c xs with
      | [] => [[x]]
      | h :: t => (x :: h) :: t

/-- Python `"\n".join(pieces)`. -/
def joinNl : List (List Char) → List Char
  | [] => []
  | [l] => l
  | l :: ls => l ++ '\n' :: joinNl ls

/-- Python `text.replace("\r\n", "\n")`: left-to-right, non-overlapping. -/
def replaceCRLF : List Char → List Char
  | '\r' :: '\n' :: rest => '\n' :: replaceCRLF rest
  | c :: rest => c :: replaceCRLF rest
  | [] => []

/-- `text.replace("\r\n", "\n").replace("\r", "\n")`: the newline
normalisation every parser in the program starts with. -/
def normalizeNl (l : List Char) : List Char :=
  (replaceCRLF l).map (fun c => if c = '\r' then '\n' else c)

/-- Python `pat in s` (substring containment). -/
def containsSub (pat : List Char) : List Char → Bool
  | [] => pat.isPrefixOf ([] : List Char)
  | x :: xs => pat.isPrefixOf (x :: xs) || containsSub pat xs

/-- Python `s.split(sep, 1)` distilled to its two outcomes: `some (a, b)`
when `s = a ++ sep ++ b` with `sep` not occurring in `a` (split at the first
occurrence), `none` when `sep` does not occur. -/
def splitOnce (c : Char) : List Char → Option (List Char × List Char)
  | [] => none
  | x :: xs =>
    if x = c then some ([], xs)
    else (splitOnce c xs).map (fun p => (x :: p.1, p.2))

/-- The regular expression `^\d+$` applied by the program to an already
stripped field: non-empty and all ASCII digits. -/
def isNumericStr (l : List Char) : Bool :=
  decide (l ≠ []) && l.all Char.isDigit

/-- Python `int(s)` on a string of decimal digits. -/
def natOfDigits (l : List Char) : Nat :=
  l.foldl (fun a c => 10 * a + (c.toNat - 48)) 0

/-- Decimal digit character. -/
def digitChar (d : Nat) : Char := Char.ofNat (48 + d)

/-- Fuel-driven decimal rendering (fuel keeps the recursion structural, so
concrete evaluation reduces in the kernel). -/
def natDigitsAux : Nat → Nat → List Char → List Char
  | 0, _, acc => acc
  | fuel + 1, n, acc =>
    if n < 10 then digitChar n :: acc
    else natDigitsAux fuel (n / 10) (digitChar (n % 10) :: acc)

/-- Python `str(n)` for a non-negative integer. -/
def natDigits (n : Nat) : List Char := natDigitsAux (n + 1) n []

/-! ## Data model -/

/-- One subtitle unit, the dict
`{"index": i, "time": t, "src": s, "tr": r}` built by the parsers. -/
structure TranslationUnit where
  index : Nat
  time : List Char
  src : List Char
  tr : List Char
deriving DecidableEq, Repr

/-! ## SRT parser (`parse_srt`) -/

/-- The time-range marker `-->`. -/
def arrowMark : List Char := ['-', '-', '>']

/-- Separator matcher for `re.split(r"\n\s*\n", text)`: called on the text
right after a `'\n'`, it returns the number of characters the rest of the
(greedy, backtracking) match `\s*\n` consumes — through the last `'\n'` of
the maximal whitespace run — or `none` when the position starts no match. -/
def sepLen (l : List Char) : Option Nat :=
  (lastNlIdx (l.takeWhile isPySpace)).map (· + 1)
where
  /-- Index of the last `'\n'` in a list, if any. -/
  lastNlIdx : List Char → Option Nat
    | [] => none
    | c :: rest =>
      match lastNlIdx rest with
      | some k => some (k + 1)
      | none => if c = '\n' then some 0 else none

/-- Fuelled worker for `re.split(r"\n\s*\n", text)`; with fuel at least the
length of the text the fallback branch is never reached. -/
def splitBlocksAux : Nat → List Char → List Char → List (List Char)
  | _, [], acc => [acc.reverse]
  | 0, l, acc => [acc.reverse ++ l]
  | fuel + 1, c :: rest, acc =>
    if c = '\n' then
      match sepLen rest with
      | some k => acc.reverse :: splitBlocksAux fuel (rest.drop k) []
      | none => splitBlocksAux fuel rest ('\n' :: acc)
    else splitBlocksAux fuel rest (c :: acc)

/-- `re.split(r"\n\s*\n", text)`: blank-line-separated blocks. -/
def splitBlocks (l : List Char) : List (List Char) :=
  splitBlocksAux l.length l []

/-- `[ln.strip("\n") for ln in b.split("\n") if ln.strip("\n") != ""]`:
the non-empty lines of a block (`strip("\n")` strips only newlines, which
the pieces of a `"\n"`-split cannot contain, so it is the identity here). -/
def blockLines (b : List Char) : List (List Char) :=
  ((splitOnChar '\n' b).map (fun ln => stripNlEnds ln)).filter (fun ln => ln ≠ [])
where
  /-- Python `s.strip("\n")`. -/
  stripNlEnds (l : List Char) : List Char :=
    ((l.dropWhile (· = '\n')).reverse.dropWhile (· = '\n')).reverse

/-- The `for i in range(start_at, min(start_at + 2, len(lines)))` search for
a line containing `-->`: returns the raw time line and the index of the line
after it.  Out-of-range positions read as `[]`, which contains no arrow, so
the `min` clipping is automatic. -/
def findTimeLine (lines : List (List Char)) (startAt : Nat) :
    Option (List Char × Nat) :=
  if containsSub arrowMark (lines.getD startAt []) then
    some (lines.getD startAt [], startAt + 1)
  else if containsSub arrowMark (lines.getD (startAt + 1) []) then
    some (lines.getD (startAt + 1) [], startAt + 2)
  else none

/-- One iteration of the block loop of `parse_srt`, up to the fallback
index: `none` for a discarded block, otherwise
`(explicit index if the first line is numeric, stripped time line, joined
source text)`. -/
def blockParse (b : List Char) : Option (Option Nat × List Char × List Char) :=
  let lines := blockLines b
  if lines.length < 2 then none
  else
    let s0 := pyStrip (lines.getD 0 [])
    let startAt := if isNumericStr s0 then 1 else 0
    match findTimeLine lines startAt with
    | none => none
    | some (tl, newStart) =>
      some
        ( if isNumericStr s0 then some (natOfDigits s0) else none,
          pyStrip tl,
          pyStrip (joinSp ((lines.drop newStart).map pyStrip)) )
where
  /-- Python `" ".join(pieces)`. -/
  joinSp : List (List Char) → List Char
    | [] => []
    | [l] => l
    | l :: ls => l ++ ' ' :: joinSp ls

/-- The accumulator loop of `parse_srt`: discarded blocks add nothing, an
accepted block without an explicit index receives `len(items) + 1`. -/
def srtLoop : List (List Char) → List TranslationUnit → List TranslationUnit
  | [], acc => acc
  | b :: bs, acc =>
    match blockParse b with
    | none => srtLoop bs acc
    | some (idx?, t, s) =>
      srtLoop bs (acc ++ [⟨idx?.getD (acc.length + 1), t, s, []⟩])

/-- `parse_srt(text)`. -/
def parseSrt (text : List Char) : List TranslationUnit :=
  let t := pyStrip (normalizeNl text)
  if t = [] then [] else srtLoop (splitBlocks t) []

/-- The blocks `parse_srt` iterates over (empty input yields none). -/
def srtBlocks (text : List Char) : List (List Char) :=
  let t := pyStrip (normalizeNl text)
  if t = [] then [] else splitBlocks t

/-- A well-formed SRT block as the specification describes it: at least two
non-empty lines, an optional leading purely-numeric index line, and a line
containing `-->` among the first two lines after the optional index line. -/
def wellFormedSrtBlock (b : List Char) : Bool :=
  let lines := blockLines b
  decide (2 ≤ lines.length) &&
    (let startAt := if isNumericStr (pyStrip (lines.getD 0 [])) then 1 else 0
     containsSub arrowMark (lines.getD startAt []) ||
       containsSub arrowMark (lines.getD (startAt + 1) []))

/-! ## Tabular parser (`parse_tsv_like`) -/

/-- The body of the line loop of `parse_tsv_like` for one line, given the
current value of the auto-index counter. -/
def tsvLine (autoIdx : Nat) (ln : List Char) : TranslationUnit :=
  let two : List Char × List Char → TranslationUnit := fun (a, b) =>
    let left := pyStrip a
    let right := pyStrip b
    if isNumericStr left then ⟨natOfDigits left, [], right, []⟩
    else ⟨autoIdx, [], pyStrip ln, []⟩
  match splitOnce '\t' ln with
  | some p => two p
  | none =>
    match splitOnce ',' ln with
    | some p => two p
    | none => ⟨autoIdx, [], pyStrip ln, []⟩

/-- The line loop of `parse_tsv_like`: `auto_index` starts at the given
value and is incremented after every line. -/
def tsvLoop : Nat → List (List Char) → List TranslationUnit
  | _, [] => []
  | i, ln :: rest => tsvLine i ln :: tsvLoop (i + 1) rest

/-- The non-blank lines `parse_tsv_like` iterates over. -/
def tsvLines (text : List Char) : List (List Char) :=
  (splitOnChar '\n' (pyStrip (normalizeNl text))).filter
    (fun ln => pyStrip ln ≠ [])

/-- `parse_tsv_like(text)`. -/
def parseTsvLike (text : List Char) : List TranslationUnit :=
  let t := pyStrip (normalizeNl text)
  if t = [] then []
  else tsvLoop 1 ((splitOnChar '\n' t).filter (fun ln => pyStrip ln ≠ []))

/-! ## Batch payload codec (`build_user_payload`, `parse_model_output`) -/

/-- `it["src"].replace("\n", " ").strip()`: the flattened source text as it
appears in the request payload. -/
def flattenSrc (src : List Char) : List Char :=
  pyStrip (src.map (fun c => if c = '\n' then ' ' else c))

/-- The fixed instructional boilerplate of `build_user_payload`. -/
def payloadHeader : List Char :=
  ("Hãy dịch các dòng phụ đề sau theo hướng dẫn.\n" ++
   "NHẮC LẠI format bắt buộc: index: nội dung dịch\n\n" ++
   "DANH SÁCH CẦN DỊCH:\n").data

/-- `build_user_payload(batch_items, guide_prompt)`: boilerplate followed by
one line `index TAB flattened-source` per unit. -/
def buildUserPayload (batch : List TranslationUnit) : List Char :=
  payloadHeader ++
    joinNl (batch.map (fun it => natDigits it.index ++ '\t' :: flattenSrc it.src))

/-- The regular expression `^(\d+)\s*:\s*(.*)$` of `parse_model_output`,
applied to a stripped line, followed by the `.strip()` of group 2:
`some (int(group 1), group2.strip())` on a match. -/
def lineMatch (s : List Char) : Option (Nat × List Char) :=
  let ds := s.takeWhile Char.isDigit
  if ds = [] then none
  else
    match (s.drop ds.length).dropWhile isPySpace with
    | ':' :: rest => some (natOfDigits ds, pyStrip (rest.dropWhile isPySpace))
    | _ => none

/-- Python dict assignment `m[k] = v` on an insertion-ordered mapping:
update in place when the key exists, append otherwise. -/
def dictInsert : List (Nat × List Char) → Nat → List Char → List (Nat × List Char)
  | [], k, v => [(k, v)]
  | (k1, v1) :: rest, k, v =>
    if k1 = k then (k1, v) :: rest else (k1, v1) :: dictInsert rest k v

/-- Lookup in an insertion-ordered mapping (Python `k in m` / `m[k]`). -/
def alookup (k : Nat) : List (Nat × List Char) → Option (List Char)
  | [] => none
  | (k1, v) :: rest => if k1 = k then some v else alookup k rest

/-- The line loop of `parse_model_output`: strip each line, skip empty
lines, store each grammar match with dict assignment. -/
def pmoLoop : List (List Char) → List (Nat × List Char) → List (Nat × List Char)
  | [], m => m
  | ln :: rest, m =>
    let s := pyStrip ln
    if s = [] then pmoLoop rest m
    else
      match lineMatch s with
      | some (i, tr) => pmoLoop rest (dictInsert m i tr)
      | none => pmoLoop rest m

/-- `parse_model_output(output)`. -/
def parseModelOutput (output : List Char) : List (Nat × List Char) :=
  pmoLoop (splitOnChar '\n' (pyStrip (normalizeNl output))) []

/-- The well-formed `index: translation` entries of a reply, one per line
matching the decode grammar, in line order. -/
def matchedEntries (output : List Char) : List (Nat × List Char) :=
  (splitOnChar '\n' (pyStrip (normalizeNl output))).filterMap
    (fun ln => lineMatch (pyStrip ln))

/-- The value of the last entry carrying a given key, if any. -/
def lastValueOf (k : Nat) : List (Nat × List Char) → Option (List Char)
  | [] => none
  | (k1, v) :: rest =>
    match lastValueOf k rest with
    | some w => some w
    | none => if k1 = k then some v else none

/-- Modelled from the spec: the simulated reply of the round-trip property —
the specification has the remote model echo one line `index: source` per
unit, the source being the flattened source text it was sent. -/
def simulatedReply (units : List TranslationUnit) : List Char :=
  joinNl (units.map (fun u => natDigits u.index ++ ':' :: ' ' :: flattenSrc u.src))

/-! ## Translation state store -/

/-- The sort key `lambda x: x["index"]` as an ordering relation. -/
def leIdx (a b : TranslationUnit) : Prop := a.index ≤ b.index

instance : DecidableRel leIdx := fun a b => Nat.decLe a.index b.index

instance : IsTotal TranslationUnit leIdx := ⟨fun a b => Nat.le_total a.index b.index⟩

instance : IsTrans TranslationUnit leIdx := ⟨fun _ _ _ => Nat.le_trans⟩

/-- `items.sort(key=lambda x: x["index"])` (stable, ascending by index). -/
def sortByIndex (items : List TranslationUnit) : List TranslationUnit :=
  List.insertionSort leIdx items

/-- Overwrite the translation of the first unit with the given index. -/
def setFirstTr : List TranslationUnit → Nat → List Char → List TranslationUnit
  | [], _, _ => []
  | it :: rest, k, v =>
    if it.index = k then { it with tr := v } :: rest
    else it :: setFirstTr rest k v

/-- Overwrite the translation of the last unit with the given index: the
target of `idx_to_item[idx]["tr"] = tr`, because the dict comprehension
`{it["index"]: it for it in self.items}` keeps, per index, the last unit. -/
def setLastTr (items : List TranslationUnit) (k : Nat) (v : List Char) :
    List TranslationUnit :=
  (setFirstTr items.reverse k v).reverse

/-- `_apply_translation_mapping(mapping)` restricted to the authoritative
unit list: one dict write per mapping entry, in insertion order; indices
absent from the unit list are ignored. -/
def applyTranslationMapping (items : List TranslationUnit)
    (mapping : List (Nat × List Char)) : List TranslationUnit :=
  mapping.foldl (fun its kv => setLastTr its kv.1 kv.2) items

/-- `[it for it in self.items if not it.get("tr", "").strip()]`: the pending
(untranslated) units, in table order. -/
def pendingOf (items : List TranslationUnit) : List TranslationUnit :=
  items.filter (fun it => pyStrip it.tr = [])

/-! ## Batch scheduler (`_translate_worker` and the event queue)

The worker thread communicates with the display thread only through
`work_q`; we model the queue's content as the list of events the worker
emits, in emission (FIFO) order.  The remote endpoint and the thread pool
are the external collaborators: a run is driven by the list of batch
results in *completion* order (`as_completed`), each tagged with the state
of the shared stop flag observed when that future is dequeued. -/

/-- Status messages, keyed by the data they interpolate. -/
inductive StatusMsg where
  | starting (total batchSize concurrency : Nat) (modelId : List Char)
  | stopping
  | progress (completed totalBatches concurrency : Nat)
  | stoppedStatus
deriving DecidableEq, Repr

/-- Log messages, keyed by the data they interpolate.  `rawReply` is the
verbatim raw reply text of a batch that failed to decode. -/
inductive LogMsg where
  | imageWarn
  | header (modelId : List Char) (total batchSize concurrency : Nat)
  | nothingToDo
  | totalBatches (n : Nat)
  | batchFailFormat (rng : Option (Nat × Nat))
  | rawReply (raw : List Char)
  | batchOk (first last parsed completed totalBatches : Nat)
  | stoppedNote
deriving DecidableEq, Repr

/-- Error messages surfaced through the `error` event. -/
inductive ErrMsg where
  | batchException (e : List Char)
  | parseFail
deriving DecidableEq, Repr

/-- One `work_q` event (`{"kind": ..., ...}` dicts of the program). -/
inductive Event where
  | status (m : StatusMsg)
  | log (m : LogMsg)
  | update (mapping : List (Nat × List Char))
  | done
  | error (m : ErrMsg)
deriving DecidableEq, Repr

/-- A terminal event of the run driver. -/
def isTerminal : Event → Bool
  | Event.done => true
  | Event.error _ => true
  | _ => false

/-- The result dict returned by `translate_one_batch`. -/
structure BatchResult where
  mapping : List (Nat × List Char)
  rng : Option (Nat × Nat)
  raw : List Char
  skipped : Bool
deriving DecidableEq, Repr

instance {ε α : Type} [DecidableEq ε] [DecidableEq α] : DecidableEq (Except ε α) :=
  fun a b =>
    match a, b with
    | Except.error x, Except.error y =>
      if h : x = y then isTrue (by rw [h])
      else isFalse (fun hh => h (by cases hh; rfl))
    | Except.ok x, Except.ok y =>
      if h : x = y then isTrue (by rw [h])
      else isFalse (fun hh => h (by cases hh; rfl))
    | Except.error _, Except.ok _ => isFalse (fun hh => by cases hh)
    | Except.ok _, Except.error _ => isFalse (fun hh => by cases hh)

/-- One future dequeued by `as_completed`: the stop-flag state observed at
the head of the result loop, and either the worker's result or the message
of the exception `fut.result()` re-raised. -/
structure Completion where
  flagSeen : Bool
  res : Except (List Char) BatchResult
deriving DecidableEq, Repr

/-- Fuelled batch partition
`[pending[start:start+batch_size] for start in range(0, len(pending), batch_size)]`
(fuel keeps the recursion structural; with fuel at least the list length and
a positive batch size the fallback is never reached). -/
def pyChunksAux (k : Nat) : Nat → List TranslationUnit → List (List TranslationUnit)
  | _, [] => []
  | 0, _ => []
  | fuel + 1, x :: xs => (x :: xs).take k :: pyChunksAux k fuel ((x :: xs).drop k)

/-- The batch partition of the worker. -/
def pyChunks (k : Nat) (l : List TranslationUnit) : List (List TranslationUnit) :=
  pyChunksAux k l.length l

/-- The `for fut in as_completed(...)` loop: processes completions in
completion order, threading the completed-batch counter; returns the
events emitted inside the loop and, when a `RuntimeError` was raised, its
message (the loop stops there and the exception propagates). -/
def runLoop (totalBatches concurrency : Nat) :
    Nat → List Completion → List Event × Option ErrMsg
  | _, [] => ([], none)
  | completed, c :: cs =>
    let pre := if c.flagSeen then [Event.status StatusMsg.stopping] else []
    match c.res with
    | Except.error e => (pre, some (ErrMsg.batchException e))
    | Except.ok r =>
      if r.skipped then
        let rec2 := runLoop totalBatches concurrency completed cs
        (pre ++ rec2.1, rec2.2)
      else if r.mapping = [] then
        (pre ++ [Event.log (LogMsg.batchFailFormat r.rng),
                 Event.log (LogMsg.rawReply r.raw)],
         some ErrMsg.parseFail)
      else
        let okEvents :=
          [Event.update r.mapping] ++
            (match r.rng with
             | some (a, b) =>
               [Event.log (LogMsg.batchOk a b r.mapping.length (completed + 1)
                  totalBatches)]
             | none => []) ++
            [Event.status (StatusMsg.progress (completed + 1) totalBatches
               concurrency)]
        let rec2 := runLoop totalBatches concurrency (completed + 1) cs
        (pre ++ okEvents ++ rec2.1, rec2.2)

/-- The events the worker emits before selecting pending units: the
optional image-model warning, the starting status and the config log. -/
def runHeader (items : List TranslationUnit) (modelId : List Char)
    (batchSize concurrency : Nat) : List Event :=
  (if containsSub "image".data (modelId.map Char.toLower)
   then [Event.log LogMsg.imageWarn] else []) ++
    [Event.status (StatusMsg.starting items.length batchSize concurrency modelId),
     Event.log (LogMsg.header modelId items.length batchSize concurrency)]

/-- What a run produces: its FIFO event stream and the batches it built
(one remote call is made per non-skipped batch). -/
structure RunOutput where
  events : List Event
  batches : List (List TranslationUnit)
deriving DecidableEq, Repr

/-- `_translate_worker`: pending selection, sort, partition, the result
loop, the stop-flag epilogue and the terminal event.  `completions` is the
`as_completed` sequence handed back by the pool, `finalFlag` the stop-flag
state at the epilogue check. -/
def runWorker (items : List TranslationUnit) (modelId : List Char)
    (batchSize concurrency : Nat) (completions : List Completion)
    (finalFlag : Bool) : RunOutput :=
  let header := runHeader items modelId batchSize concurrency
  let pending := pendingOf items
  if pending = [] then
    ⟨header ++ [Event.log LogMsg.nothingToDo, Event.done], []⟩
  else
    let batches := pyChunks batchSize (sortByIndex pending)
    let loopOut := runLoop batches.length concurrency 0 completions
    let tail :=
      match loopOut.2 with
      | some e => [Event.error e]
      | none =>
        (if finalFlag then
          [Event.log LogMsg.stoppedNote, Event.status StatusMsg.stoppedStatus]
         else []) ++ [Event.done]
    ⟨header ++ [Event.log (LogMsg.totalBatches batches.length)] ++
       loopOut.1 ++ tail, batches⟩

/-- The mappings carried by the `update_translations` events of a stream. -/
def updatesOf (events : List Event) : List (List (Nat × List Char)) :=
  events.filterMap (fun e =>
    match e with
    | Event.update m => some m
    | _ => none)

/-- The merged unit table after the display loop (`_poll_queue`) has
consumed a stream: every `update_translations` event is applied through
`_apply_translation_mapping`, in FIFO order. -/
def appliedItems (items : List TranslationUnit) (events : List Event) :
    List TranslationUnit :=
  events.foldl (fun its e =>
    match e with
    | Event.update m => applyTranslationMapping its m
    | _ => its) items

/-- The decoded mappings of the non-skipped, successful completions of a
sequence, in completion order. -/
def successMappings (completions : List Completion) :
    List (List (Nat × List Char)) :=
  completions.filterMap (fun c =>
    match c.res with
    | Except.ok r => if r.skipped then none else some r.mapping
    | Except.error _ => none)

/-! ## Lemmas: batch partition -/

theorem pyChunksAux_nil (k fuel : Nat) : pyChunksAux k fuel [] = [] := by
  cases fuel <;> rfl

theorem pyChunksAux_flatten (k : Nat) (hk : 0 < k) :
    ∀ fuel (l : List TranslationUnit), l.length ≤ fuel →
      (pyChunksAux k fuel l).flatten = l := by
  intro fuel
  induction fuel with
  | zero =>
    intro l hl
    have : l = [] := List.eq_nil_of_length_eq_zero (Nat.le_zero.mp hl)
    subst this
    simp [pyChunksAux_nil]
  | succ n ih =>
    intro l hl
    match l with
    | [] => simp [pyChunksAux_nil]
    | x :: xs =>
      have hdrop : ((x :: xs).drop k).length ≤ n := by
        simp only [List.length_drop, List.length_cons]
        simp only [List.length_cons] at hl
        omega
      simp only [pyChunksAux, List.flatten_cons]
      rw [ih _ hdrop, List.take_append_drop]

theorem pyChunksAux_ne_nil (k fuel : Nat) (x : TranslationUnit)
    (xs : List TranslationUnit) (hf : 0 < fuel) :
    pyChunksAux k fuel (x :: xs) ≠ [] := by
  match fuel, hf with
  | n + 1, _ => simp [pyChunksAux]

theorem pyChunksAux_sizes (k : Nat) (hk : 0 < k) :
    ∀ fuel (l : List TranslationUnit), l.length ≤ fuel →
      (∀ c ∈ (pyChunksAux k fuel l).dropLast, c.length = k) ∧
      (∀ c, (pyChunksAux k fuel l).getLast? = some c → c ≠ [] ∧ c.length ≤ k) := by
  intro fuel
  induction fuel with
  | zero =>
    intro l hl
    have : l = [] := List.eq_nil_of_length_eq_zero (Nat.le_zero.mp hl)
    subst this
    simp [pyChunksAux_nil]
  | succ n ih =>
    intro l hl
    match l with
    | [] => simp [pyChunksAux_nil]
    | x :: xs =>
      simp only [List.length_cons] at hl
      simp only [pyChunksAux]
      by_cases hrest : (x :: xs).drop k = []
      · have hlen : xs.length + 1 ≤ k := by
          have := congrArg List.length hrest
          simp only [List.length_drop, List.length_cons, List.length_nil] at this
          omega
        rw [hrest, pyChunksAux_nil]
        refine ⟨by intro c hc; simp at hc, ?_⟩
        intro c hc
        simp only [List.getLast?_singleton, Option.some.injEq] at hc
        subst hc
        refine ⟨?_, ?_⟩
        · match k, hk with
          | kk + 1, _ => simp [List.take_succ_cons]
        · exact List.length_take_le k (x :: xs)
      · have hlrest : 0 < xs.length + 1 - k := by
          by_contra hcon
          exact hrest (List.drop_eq_nil_of_le (by simp only [List.length_cons]; omega))
        have hdrop : ((x :: xs).drop k).length ≤ n := by
          simp only [List.length_drop, List.length_cons]
          omega
        have hne : pyChunksAux k n ((x :: xs).drop k) ≠ [] := by
          match hdd : (x :: xs).drop k, hrest with
          | y :: ys, _ =>
            have hn : 0 < n := by
              have := congrArg List.length hdd
              simp only [List.length_drop, List.length_cons] at this
              omega
            exact pyChunksAux_ne_nil k n y ys hn
        obtain ⟨ih1, ih2⟩ := ih _ hdrop
        have hk' : k ≤ xs.length := by omega
        constructor
        · intro c hc
          rw [List.dropLast_cons_of_ne_nil hne] at hc
          rcases List.mem_cons.mp hc with h | h
          · subst h
            simp only [List.length_take, List.length_cons]
            omega
          · exact ih1 c h
        · intro c hc
          obtain ⟨y, ys, hyy⟩ : ∃ y ys, pyChunksAux k n ((x :: xs).drop k) = y :: ys := by
            match hdd2 : pyChunksAux k n ((x :: xs).drop k), hne with
            | y :: ys, _ => exact ⟨y, ys, rfl⟩
          rw [hyy, List.getLast?_cons_cons] at hc
          rw [hyy] at ih2
          exact ih2 c hc

theorem pyChunks_flatten (k : Nat) (hk : 0 < k) (l : List TranslationUnit) :
    (pyChunks k l).flatten = l :=
  pyChunksAux_flatten k hk l.length l (Nat.le_refl _)

theorem pyChunks_sizes (k : Nat) (hk : 0 < k) (l : List TranslationUnit) :
    (∀ c ∈ (pyChunks k l).dropLast, c.length = k) ∧
    (∀ c, (pyChunks k l).getLast? = some c → c ≠ [] ∧ c.length ≤ k) :=
  pyChunksAux_sizes k hk l.length l (Nat.le_refl _)

theorem sortByIndex_length (l : List TranslationUnit) :
    (sortByIndex l).length = l.length :=
  (List.perm_insertionSort leIdx l).length_eq

theorem sortByIndex_ne_nil (l : List TranslationUnit) (h : l ≠ []) :
    sortByIndex l ≠ [] := by
  intro hcon
  apply h
  have := sortByIndex_length l
  rw [hcon] at this
  exact List.eq_nil_of_length_eq_zero this.symm

/-- Seventeen pending units with consecutive indices (the specification's
partition example). -/
def sample17 : List TranslationUnit :=
  (List.range 17).map (fun i => ⟨i + 1, [], ['s'], []⟩)

/-- C6: deterministic batch partitioning — for every non-empty pending list
and every positive batch size, the batches built from the sorted pending
list are consecutive slices whose concatenation is the sorted pending list
(hence disjoint, order-preserving, covering), every batch except possibly
the last has size exactly `batchSize`, the last is non-empty and no larger,
at least one batch exists, and 17 units with batch size 5 yield sizes
`[5, 5, 5, 2]`. -/
theorem batch_partition_spec (pending : List TranslationUnit) (batchSize : Nat)
    (hne : pending ≠ []) (hk : 0 < batchSize) :
    (pyChunks batchSize (sortByIndex pending)).flatten = sortByIndex pending ∧
    (∀ c ∈ (pyChunks batchSize (sortByIndex pending)).dropLast,
      c.length = batchSize) ∧
    (∀ c, (pyChunks batchSize (sortByIndex pending)).getLast? = some c →
      c ≠ [] ∧ c.length ≤ batchSize) ∧
    pyChunks batchSize (sortByIndex pending) ≠ [] ∧
    (pyChunks 5 (sortByIndex sample17)).map List.length = [5, 5, 5, 2] := by
  obtain ⟨h1, h2⟩ := pyChunks_sizes batchSize hk (sortByIndex pending)
  refine ⟨pyChunks_flatten batchSize hk (sortByIndex pending), h1, h2, ?_, by decide⟩
  have hs := sortByIndex_ne_nil pending hne
  match hss : sortByIndex pending, hs with
  | y :: ys, _ =>
    unfold pyChunks
    exact pyChunksAux_ne_nil batchSize _ y ys (by simp)

theorem batch_partition_spec_witness :
    sample17 ≠ [] ∧ 0 < 5 ∧
    ((pyChunks 5 (sortByIndex sample17)).flatten = sortByIndex sample17 ∧
     (∀ c ∈ (pyChunks 5 (sortByIndex sample17)).dropLast, c.length = 5) ∧
     (∀ c, (pyChunks 5 (sortByIndex sample17)).getLast? = some c →
       c ≠ [] ∧ c.length ≤ 5) ∧
     pyChunks 5 (sortByIndex sample17) ≠ [] ∧
     (pyChunks 5 (sortByIndex sample17)).map List.length = [5, 5, 5, 2]) :=
  ⟨by decide, by decide, batch_partition_spec sample17 5 (by decide) (by decide)⟩

/-! ## Lemmas: tabular parser -/

/-- Default unit used only as the `getD` fallback in statements. -/
def unit0 : TranslationUnit := ⟨0, [], [], []⟩

theorem splitOnce_eq_some_iff (c : Char) :
    ∀ (l a b : List Char), splitOnce c l = some (a, b) ↔ (l = a ++ c :: b ∧ c ∉ a) := by
  intro l
  induction l with
  | nil =>
    intro a b
    simp [splitOnce]
  | cons x xs ih =>
    intro a b
    by_cases hx : x = c
    · have hsplit : splitOnce c (x :: xs) = some ([], xs) := by
        simp [splitOnce, hx]
      rw [hsplit]
      constructor
      · intro h
        simp only [Option.some.injEq, Prod.mk.injEq] at h
        obtain ⟨ha, hb⟩ := h
        rw [← ha, ← hb, hx]
        simp
      · rintro ⟨h1, h2⟩
        cases a with
        | nil =>
          simp only [List.nil_append, List.cons.injEq] at h1
          rw [h1.2]
        | cons a0 a1 =>
          simp only [List.cons_append, List.cons.injEq] at h1
          have hmem : c ∈ a0 :: a1 := by
            have hca : c = a0 := by
              rw [← hx]
              exact h1.1
            rw [hca]
            exact List.mem_cons_self a0 a1
          exact absurd hmem h2
    · have hsplit : splitOnce c (x :: xs) =
          Option.map (fun p => (x :: p.1, p.2)) (splitOnce c xs) := by
        simp [splitOnce, hx]
      rw [hsplit]
      constructor
      · intro h
        obtain ⟨⟨p1, p2⟩, hp, heq⟩ := Option.map_eq_some'.mp h
        simp only [Prod.mk.injEq] at heq
        obtain ⟨ha, hb⟩ := heq
        obtain ⟨hxs, hnot⟩ := (ih p1 p2).mp hp
        constructor
        · rw [← ha, ← hb, hxs]
          rfl
        · rw [← ha]
          intro hmem
          rcases List.mem_cons.mp hmem with h1 | h1
          · exact hx h1.symm
          · exact hnot h1
      · rintro ⟨h1, h2⟩
        cases a with
        | nil =>
          simp only [List.nil_append, List.cons.injEq] at h1
          exact absurd h1.1 hx
        | cons a0 a1 =>
          simp only [List.cons_append, List.cons.injEq] at h1
          have hnot : c ∉ a1 := fun hm => h2 (List.mem_cons_of_mem a0 hm)
          rw [(ih a1 b).mpr ⟨h1.2, hnot⟩]
          simp [h1.1]

theorem tsvLoop_getD :
    ∀ (l : List (List Char)) (i k : Nat), k < l.length →
      (tsvLoop i l).getD k unit0 = tsvLine (i + k) (l.getD k []) := by
  intro l
  induction l with
  | nil =>
    intro i k hk
    simp at hk
  | cons ln rest ih =>
    intro i k hk
    match k with
    | 0 => simp [tsvLoop]
    | kk + 1 =>
      simp only [tsvLoop, List.getD_cons_succ]
      rw [ih (i + 1) kk (by simpa using Nat.lt_of_succ_lt_succ hk)]
      congr 1
      omega

theorem parseTsvLike_eq_loop (text : List Char) :
    parseTsvLike text = tsvLoop 1 (tsvLines text) := by
  unfold parseTsvLike tsvLines
  by_cases h : pyStrip (normalizeNl text) = []
  · rw [h]
    simp [splitOnChar, tsvLoop, pyStrip, sLeft, sRight]
  · simp [h]

/-- C8: tabular parsing grammar — the parser processes exactly the
non-blank lines; the unit of the k-th line (0-based) is built with
auto-counter `k + 1` (the counter starts at 1 and is incremented after
every line, explicit index or not); a line is split at its first tab when
it has one, else its first comma (`splitOnce` finds exactly the first
occurrence); a two-field split yields `(int(left), right)` only for a
purely numeric left field, and otherwise the unit keeps the whole stripped
line with the auto index; `"Hello\nWorld"` yields exactly
`(1, "Hello")` and `(2, "World")`. -/
theorem tabular_grammar_spec :
    (∀ text, parseTsvLike text = tsvLoop 1 (tsvLines text)) ∧
    (∀ text k, k < (tsvLines text).length →
      (parseTsvLike text).getD k unit0 =
        tsvLine (k + 1) ((tsvLines text).getD k [])) ∧
    (∀ c (l a b : List Char),
      splitOnce c l = some (a, b) ↔ (l = a ++ c :: b ∧ c ∉ a)) ∧
    (∀ i ln a b, splitOnce '\t' ln = some (a, b) →
      isNumericStr (pyStrip a) = true →
      tsvLine i ln = ⟨natOfDigits (pyStrip a), [], pyStrip b, []⟩) ∧
    (∀ i ln a b, splitOnce '\t' ln = some (a, b) →
      isNumericStr (pyStrip a) = false →
      tsvLine i ln = ⟨i, [], pyStrip ln, []⟩) ∧
    (∀ i ln a b, splitOnce '\t' ln = none → splitOnce ',' ln = some (a, b) →
      isNumericStr (pyStrip a) = true →
      tsvLine i ln = ⟨natOfDigits (pyStrip a), [], pyStrip b, []⟩) ∧
    (∀ i ln a b, splitOnce '\t' ln = none → splitOnce ',' ln = some (a, b) →
      isNumericStr (pyStrip a) = false →
      tsvLine i ln = ⟨i, [], pyStrip ln, []⟩) ∧
    (∀ i ln, splitOnce '\t' ln = none → splitOnce ',' ln = none →
      tsvLine i ln = ⟨i, [], pyStrip ln, []⟩) ∧
    parseTsvLike "Hello\nWorld".data =
      [⟨1, [], "Hello".data, []⟩, ⟨2, [], "World".data, []⟩] := by
  refine ⟨parseTsvLike_eq_loop, ?_, splitOnce_eq_some_iff, ?_, ?_, ?_, ?_, ?_, by decide⟩
  · intro text k hk
    rw [parseTsvLike_eq_loop, tsvLoop_getD (tsvLines text) 1 k hk]
    congr 1
    omega
  · intro i ln a b h hn
    simp [tsvLine, h, hn]
  · intro i ln a b h hn
    simp [tsvLine, h, hn]
  · intro i ln a b h h2 hn
    simp [tsvLine, h, h2, hn]
  · intro i ln a b h h2 hn
    simp [tsvLine, h, h2, hn]
  · intro i ln h h2
    simp [tsvLine, h, h2]

/-! ## Lemmas: merge commutativity -/

theorem setFirstTr_comm (k1 k2 : Nat) (hk : k1 ≠ k2) (v1 v2 : List Char) :
    ∀ its, setFirstTr (setFirstTr its k1 v1) k2 v2 =
      setFirstTr (setFirstTr its k2 v2) k1 v1 := by
  intro its
  induction its with
  | nil => rfl
  | cons it rest ih =>
    by_cases h1 : it.index = k1
    · have h2 : it.index ≠ k2 := by rw [h1]; exact hk
      simp [setFirstTr, h1, h2, hk, Ne.symm hk]
    · by_cases h2 : it.index = k2
      · simp [setFirstTr, h1, h2, hk, Ne.symm hk]
      · simp [setFirstTr, h1, h2, ih]

theorem setLastTr_comm (k1 k2 : Nat) (hk : k1 ≠ k2) (v1 v2 : List Char)
    (its : List TranslationUnit) :
    setLastTr (setLastTr its k1 v1) k2 v2 =
      setLastTr (setLastTr its k2 v2) k1 v1 := by
  unfold setLastTr
  rw [List.reverse_reverse, List.reverse_reverse,
    setFirstTr_comm k1 k2 hk v1 v2 its.reverse]

/-- The index keys of a decoded mapping. -/
def mapKeys (m : List (Nat × List Char)) : List Nat := m.map Prod.fst

theorem setLastTr_applyMapping_comm (k : Nat) (v : List Char)
    (m : List (Nat × List Char)) (h : ∀ e ∈ m, e.1 ≠ k) :
    ∀ its, applyTranslationMapping (setLastTr its k v) m =
      setLastTr (applyTranslationMapping its m) k v := by
  induction m with
  | nil => intro its; rfl
  | cons e rest ih =>
    intro its
    have he : e.1 ≠ k := h e (List.mem_cons_self e rest)
    have hrest : ∀ x ∈ rest, x.1 ≠ k := fun x hx => h x (List.mem_cons_of_mem e hx)
    show applyTranslationMapping (setLastTr (setLastTr its k v) e.1 e.2) rest = _
    rw [setLastTr_comm k e.1 (fun hh => he hh.symm) v e.2 its]
    rw [ih hrest (setLastTr its e.1 e.2)]
    rfl

theorem applyMapping_comm (m1 m2 : List (Nat × List Char))
    (hdisj : ∀ e1 ∈ m1, ∀ e2 ∈ m2, e1.1 ≠ e2.1) :
    ∀ its, applyTranslationMapping (applyTranslationMapping its m1) m2 =
      applyTranslationMapping (applyTranslationMapping its m2) m1 := by
  induction m1 with
  | nil => intro its; rfl
  | cons e rest ih =>
    intro its
    have he : ∀ e2 ∈ m2, e.1 ≠ e2.1 := hdisj e (List.mem_cons_self e rest)
    have hrest : ∀ e1 ∈ rest, ∀ e2 ∈ m2, e1.1 ≠ e2.1 :=
      fun e1 h1 => hdisj e1 (List.mem_cons_of_mem e h1)
    show applyTranslationMapping (applyTranslationMapping (setLastTr its e.1 e.2) rest) m2 = _
    rw [ih hrest (setLastTr its e.1 e.2)]
    rw [setLastTr_applyMapping_comm e.1 e.2 m2
      (fun e2 h2 hh => he e2 h2 hh.symm) its]
    rfl

/-- C7: merge commutativity — for every unit table and every collection of
decoded mappings whose index-key sets are pairwise disjoint, applying the
mappings through `_apply_translation_mapping` in any permuted order
produces the same final unit table (hence the same `translated_text` for
every unit). -/
theorem merge_commutative (items : List TranslationUnit)
    (ms ms2 : List (List (Nat × List Char))) (hperm : ms.Perm ms2)
    (hdisj : ∀ m1 ∈ ms, ∀ m2 ∈ ms, m1 ≠ m2 →
      ∀ k, k ∈ mapKeys m1 → k ∉ mapKeys m2) :
    ms.foldl applyTranslationMapping items = ms2.foldl applyTranslationMapping items := by
  apply hperm.foldl_eq'
  intro m1 h1 m2 h2 its
  by_cases heq : m1 = m2
  · rw [heq]
  · have hd : ∀ e1 ∈ m2, ∀ e2 ∈ m1, e1.1 ≠ e2.1 := by
      intro e1 he1 e2 he2 hcon
      exact hdisj m2 h2 m1 h1 (fun hh => heq hh.symm) e1.1
        (List.mem_map_of_mem Prod.fst he1)
        (hcon ▸ List.mem_map_of_mem Prod.fst he2)
    exact (applyMapping_comm m2 m1 hd its).symm

theorem merge_commutative_witness :
    ([[(1, ['a'])], [(2, ['b'])]].Perm [[(2, ['b'])], [(1, ['a'])]] ∧
     (∀ m1 ∈ [[(1, ['a'])], [(2, ['b'])]], ∀ m2 ∈ [[(1, ['a'])], [(2, ['b'])]],
       m1 ≠ m2 → ∀ k, k ∈ mapKeys m1 → k ∉ mapKeys m2)) ∧
    [[(1, ['a'])], [(2, ['b'])]].foldl applyTranslationMapping
        [⟨1, [], ['s'], []⟩, ⟨2, [], ['t'], []⟩] =
      [[(2, ['b'])], [(1, ['a'])]].foldl applyTranslationMapping
        [⟨1, [], ['s'], []⟩, ⟨2, [], ['t'], []⟩] :=
  ⟨⟨by decide, by decide⟩,
    merge_commutative [⟨1, [], ['s'], []⟩, ⟨2, [], ['t'], []⟩]
      [[(1, ['a'])], [(2, ['b'])]] [[(2, ['b'])], [(1, ['a'])]]
      (by decide) (by decide)⟩

/-! ## Lemmas: reply decoding -/

theorem alookup_dictInsert :
    ∀ (m : List (Nat × List Char)) (k : Nat) (v : List Char) (k2 : Nat),
      alookup k2 (dictInsert m k v) = if k2 = k then some v else alookup k2 m := by
  intro m
  induction m with
  | nil =>
    intro k v k2
    by_cases h : k2 = k
    · simp [dictInsert, alookup, h]
    · simp [dictInsert, alookup, h, Ne.symm h]
  | cons e rest ih =>
    intro k v k2
    by_cases h1 : e.1 = k
    · subst h1
      by_cases h2 : k2 = e.1
      · simp [dictInsert, alookup, h2]
      · simp [dictInsert, alookup, h2, Ne.symm h2]
    · by_cases h2 : k2 = e.1
      · have h4 : ¬ k2 = k := fun hh => h1 (h2 ▸ hh)
        simp [dictInsert, alookup, h1, h2, h4]
      · simp [dictInsert, alookup, h1, h2, Ne.symm h2, ih]

theorem pmoLoop_alookup :
    ∀ (lines : List (List Char)) (m : List (Nat × List Char)) (k : Nat),
      alookup k (pmoLoop lines m) =
        match lastValueOf k (lines.filterMap (fun ln => lineMatch (pyStrip ln))) with
        | some v => some v
        | none => alookup k m := by
  intro lines
  induction lines with
  | nil => intro m k; rfl
  | cons ln rest ih =>
    intro m k
    by_cases hs : pyStrip ln = []
    · have hlm : lineMatch (pyStrip ln) = none := by
        rw [hs]
        rfl
      have hstep : pmoLoop (ln :: rest) m = pmoLoop rest m := by
        simp [pmoLoop, hs]
      rw [hstep, List.filterMap_cons, hlm]
      exact ih m k
    · match hlm : lineMatch (pyStrip ln) with
      | none =>
        have hstep : pmoLoop (ln :: rest) m = pmoLoop rest m := by
          simp [pmoLoop, hs, hlm]
        rw [hstep, List.filterMap_cons, hlm]
        exact ih m k
      | some (i, tr) =>
        have hstep : pmoLoop (ln :: rest) m = pmoLoop rest (dictInsert m i tr) := by
          simp [pmoLoop, hs, hlm]
        rw [hstep, ih (dictInsert m i tr) k, List.filterMap_cons, hlm]
        match hrest : lastValueOf k
            (rest.filterMap (fun ln2 => lineMatch (pyStrip ln2))) with
        | some w => simp [lastValueOf, hrest]
        | none =>
          have hik : ¬ i = k → ¬ k = i := fun ha hb => ha hb.symm
          simp only [lastValueOf, hrest, alookup_dictInsert]
          by_cases hk : i = k
          · simp [hk]
          · simp [hk, hik hk]

theorem parseModelOutput_lookup (output : List Char) (k : Nat) :
    alookup k (parseModelOutput output) = lastValueOf k (matchedEntries output) := by
  unfold parseModelOutput matchedEntries
  rw [pmoLoop_alookup]
  match lastValueOf k
      ((splitOnChar '\n' (pyStrip (normalizeNl output))).filterMap
        (fun ln => lineMatch (pyStrip ln))) with
  | some v => rfl
  | none => rfl

theorem lastValueOf_isSome_iff (k : Nat) :
    ∀ (es : List (Nat × List Char)),
      (lastValueOf k es).isSome = true ↔ ∃ e ∈ es, e.1 = k := by
  intro es
  induction es with
  | nil => simp [lastValueOf]
  | cons e rest ih =>
    match hrest : lastValueOf k rest with
    | some w =>
      simp only [lastValueOf, hrest, Option.isSome_some, true_iff]
      obtain ⟨e2, he2, hk⟩ := ih.mp (by rw [hrest]; rfl)
      exact ⟨e2, List.mem_cons_of_mem e he2, hk⟩
    | none =>
      simp only [lastValueOf, hrest]
      rw [hrest] at ih
      simp only [Option.isSome_none, Bool.false_eq_true, false_iff] at ih
      by_cases hk : e.1 = k
      · rw [if_pos hk]
        simp only [Option.isSome_some, true_iff]
        exact ⟨e, List.mem_cons_self e rest, hk⟩
      · rw [if_neg hk]
        simp only [Option.isSome_none, Bool.false_eq_true, false_iff]
        intro ⟨e2, he2, hke⟩
        rcases List.mem_cons.mp he2 with h | h
        · exact hk (h ▸ hke)
        · exact ih ⟨e2, h, hke⟩

/-- C10: duplicate-index resolution in `parse_model_output` — for every
reply text and every index, the decoded mapping binds the index to the
trimmed translation of the *last* line matching the grammar
`index : rest` that carries it (later lines silently overwrite earlier
ones), the index is bound at all exactly when at least one well-formed
line carries it, and concretely `"7: first\n7: second "` decodes to the
single binding `7 -> "second"`. -/
theorem decode_duplicate_last_wins :
    (∀ output k, alookup k (parseModelOutput output) =
      lastValueOf k (matchedEntries output)) ∧
    (∀ output k, (alookup k (parseModelOutput output)).isSome = true ↔
      ∃ e ∈ matchedEntries output, e.1 = k) ∧
    parseModelOutput "7: first\n7: second ".data = [(7, "second".data)] := by
  refine ⟨parseModelOutput_lookup, ?_, by decide⟩
  intro output k
  rw [parseModelOutput_lookup]
  exact lastValueOf_isSome_iff k (matchedEntries output)

/-! ## Lemmas: run driver -/

/-- A completion the result loop survives: the future returned normally
and its result is either skipped or carries a non-empty mapping. -/
def okCompletion (c : Completion) : Bool :=
  match c.res with
  | Except.ok r => r.skipped || decide (r.mapping ≠ [])
  | Except.error _ => false

theorem lastOfAppendOne {α : Type} (l : List α) (a : α) :
    (l ++ [a]).getLast? = some a := by
  induction l with
  | nil => rfl
  | cons x xs ih =>
    cases xs with
    | nil => rfl
    | cons y ys =>
      rw [List.cons_append, List.cons_append, List.getLast?_cons_cons,
        ← List.cons_append]
      exact ih

theorem runLoop_skip (total conc completed : Nat) (flag : Bool) (r : BatchResult)
    (cs : List Completion) (hsk : r.skipped = true) :
    runLoop total conc completed (⟨flag, Except.ok r⟩ :: cs) =
      ((if flag then [Event.status StatusMsg.stopping] else []) ++
        (runLoop total conc completed cs).1,
       (runLoop total conc completed cs).2) := by
  simp [runLoop, hsk]

theorem runLoop_merge (total conc completed : Nat) (flag : Bool) (r : BatchResult)
    (cs : List Completion) (hsk : r.skipped = false) (hm : r.mapping ≠ []) :
    runLoop total conc completed (⟨flag, Except.ok r⟩ :: cs) =
      ((if flag then [Event.status StatusMsg.stopping] else []) ++
        ([Event.update r.mapping] ++
          (match r.rng with
           | some (a, b) =>
             [Event.log (LogMsg.batchOk a b r.mapping.length (completed + 1) total)]
           | none => []) ++
          [Event.status (StatusMsg.progress (completed + 1) total conc)]) ++
        (runLoop total conc (completed + 1) cs).1,
       (runLoop total conc (completed + 1) cs).2) := by
  simp [runLoop, hsk, hm]

theorem runLoop_fatal (total conc completed : Nat) (flag : Bool) (r : BatchResult)
    (cs : List Completion) (hsk : r.skipped = false) (hm : r.mapping = []) :
    runLoop total conc completed (⟨flag, Except.ok r⟩ :: cs) =
      ((if flag then [Event.status StatusMsg.stopping] else []) ++
        [Event.log (LogMsg.batchFailFormat r.rng), Event.log (LogMsg.rawReply r.raw)],
       some ErrMsg.parseFail) := by
  simp [runLoop, hsk, hm]

theorem runLoop_exn (total conc completed : Nat) (flag : Bool) (msg : List Char)
    (cs : List Completion) :
    runLoop total conc completed (⟨flag, Except.error msg⟩ :: cs) =
      ((if flag then [Event.status StatusMsg.stopping] else []),
       some (ErrMsg.batchException msg)) := by
  simp [runLoop]

theorem runLoop_no_terminal (total conc : Nat) :
    ∀ (cs : List Completion) (completed : Nat),
      ∀ e ∈ (runLoop total conc completed cs).1, isTerminal e = false := by
  intro cs
  induction cs with
  | nil =>
    intro completed e he
    simp [runLoop] at he
  | cons c cs2 ih =>
    intro completed e he
    rcases c with ⟨flag, res⟩
    have hflag : ∀ x ∈ (if flag then [Event.status StatusMsg.stopping] else []),
        isTerminal x = false := by
      intro x hx
      by_cases hf : flag <;> simp [hf] at hx
      rw [hx]
      rfl
    cases res with
    | error msg =>
      rw [runLoop_exn] at he
      exact hflag e he
    | ok r =>
      by_cases hsk : r.skipped
      · rw [runLoop_skip total conc completed flag r cs2 hsk] at he
        rcases List.mem_append.mp he with h | h
        · exact hflag e h
        · exact ih completed e h
      · by_cases hm : r.mapping = []
        · rw [runLoop_fatal total conc completed flag r cs2
            (Bool.not_eq_true _ ▸ hsk) hm] at he
          rcases List.mem_append.mp he with h | h
          · exact hflag e h
          · rcases List.mem_cons.mp h with h2 | h2
            · rw [h2]; rfl
            · rcases List.mem_cons.mp h2 with h3 | h3
              · rw [h3]; rfl
              · simp at h3
        · rw [runLoop_merge total conc completed flag r cs2
            (Bool.not_eq_true _ ▸ hsk) hm] at he
          rcases List.mem_append.mp he with h | h
          · rcases List.mem_append.mp h with h2 | h2
            · exact hflag e h2
            · rcases List.mem_append.mp h2 with h3 | h3
              · rcases List.mem_append.mp h3 with h4 | h4
                · rcases List.mem_cons.mp h4 with h5 | h5
                  · rw [h5]; rfl
                  · simp at h5
                · match hr : r.rng, h4 with
                  | some (a, b), h4 =>
                    rcases List.mem_cons.mp h4 with h5 | h5
                    · rw [h5]; rfl
                    · simp at h5
                  | none, h4 => simp at h4
              · rcases List.mem_cons.mp h3 with h5 | h5
                · rw [h5]; rfl
                · simp at h5
          · exact ih (completed + 1) e h

theorem runLoop_split (total conc : Nat) :
    ∀ (pre cs : List Completion), (∀ c ∈ pre, okCompletion c = true) →
      ∀ completed,
        runLoop total conc completed (pre ++ cs) =
          ((runLoop total conc completed pre).1 ++
            (runLoop total conc (completed + (successMappings pre).length) cs).1,
           (runLoop total conc (completed + (successMappings pre).length) cs).2) := by
  intro pre
  induction pre with
  | nil =>
    intro cs h completed
    simp [runLoop, successMappings]
  | cons c pre2 ih =>
    intro cs h completed
    have hc := h c (List.mem_cons_self c pre2)
    have h2 : ∀ x ∈ pre2, okCompletion x = true :=
      fun x hx => h x (List.mem_cons_of_mem c hx)
    rcases c with ⟨flag, res⟩
    cases res with
    | error msg =>
      simp [okCompletion] at hc
    | ok r =>
      by_cases hsk : r.skipped
      · have hsm : successMappings (⟨flag, Except.ok r⟩ :: pre2) =
            successMappings pre2 := by
          simp [successMappings, hsk]
        rw [List.cons_append, runLoop_skip total conc completed flag r (pre2 ++ cs) hsk,
          runLoop_skip total conc completed flag r pre2 hsk,
          ih cs h2 completed, hsm, List.append_assoc]
      · have hm : r.mapping ≠ [] := by
          simp [okCompletion, hsk] at hc
          exact hc
        have hsk2 : r.skipped = false := Bool.not_eq_true _ ▸ hsk
        have hsm : (successMappings (⟨flag, Except.ok r⟩ :: pre2)).length =
            (successMappings pre2).length + 1 := by
          simp [successMappings, hsk2]
        rw [List.cons_append, runLoop_merge total conc completed flag r (pre2 ++ cs) hsk2 hm,
          runLoop_merge total conc completed flag r pre2 hsk2 hm,
          ih cs h2 (completed + 1), hsm, List.append_assoc, List.append_assoc]
        have harith : completed + 1 + (successMappings pre2).length =
            completed + ((successMappings pre2).length + 1) := by omega
        rw [harith]
        simp [List.append_assoc]

theorem updatesOf_append (a b : List Event) :
    updatesOf (a ++ b) = updatesOf a ++ updatesOf b := by
  unfold updatesOf
  exact List.filterMap_append a b _

theorem updatesOf_runLoop (total conc : Nat) :
    ∀ (cs : List Completion), (∀ c ∈ cs, okCompletion c = true) →
      ∀ completed,
        updatesOf (runLoop total conc completed cs).1 = successMappings cs := by
  intro cs
  induction cs with
  | nil =>
    intro h completed
    simp [runLoop, successMappings, updatesOf]
  | cons c cs2 ih =>
    intro h completed
    have hc := h c (List.mem_cons_self c cs2)
    have h2 : ∀ x ∈ cs2, okCompletion x = true :=
      fun x hx => h x (List.mem_cons_of_mem c hx)
    rcases c with ⟨flag, res⟩
    have hflagu : updatesOf (if flag then [Event.status StatusMsg.stopping] else []) = [] := by
      by_cases hf : flag <;> simp [hf, updatesOf]
    cases res with
    | error msg =>
      simp [okCompletion] at hc
    | ok r =>
      by_cases hsk : r.skipped
      · rw [runLoop_skip total conc completed flag r cs2 hsk, updatesOf_append, hflagu,
          List.nil_append, ih h2 completed]
        simp [successMappings, hsk]
      · have hm : r.mapping ≠ [] := by
          simp [okCompletion, hsk] at hc
          exact hc
        have hsk2 : r.skipped = false := Bool.not_eq_true _ ▸ hsk
        rw [runLoop_merge total conc completed flag r cs2 hsk2 hm, updatesOf_append,
          updatesOf_append, hflagu, List.nil_append, ih h2 (completed + 1)]
        have hmid : updatesOf
            ([Event.update r.mapping] ++
              (match r.rng with
               | some (a, b) =>
                 [Event.log (LogMsg.batchOk a b r.mapping.length (completed + 1) total)]
               | none => []) ++
              [Event.status (StatusMsg.progress (completed + 1) total conc)]) =
            [r.mapping] := by
          match r.rng with
          | some (a, b) => simp [updatesOf]
          | none => simp [updatesOf]
        rw [hmid]
        simp [successMappings, hsk2]

theorem updatesOf_nil : updatesOf [] = [] := rfl

theorem updatesOf_status (m : StatusMsg) (l : List Event) :
    updatesOf (Event.status m :: l) = updatesOf l := rfl

theorem updatesOf_log (m : LogMsg) (l : List Event) :
    updatesOf (Event.log m :: l) = updatesOf l := rfl

theorem updatesOf_error (m : ErrMsg) (l : List Event) :
    updatesOf (Event.error m :: l) = updatesOf l := rfl

theorem updatesOf_done (l : List Event) :
    updatesOf (Event.done :: l) = updatesOf l := rfl

theorem updatesOf_update (m : List (Nat × List Char)) (l : List Event) :
    updatesOf (Event.update m :: l) = m :: updatesOf l := rfl

theorem appliedItems_eq (evs : List Event) :
    ∀ items, appliedItems items evs =
      (updatesOf evs).foldl applyTranslationMapping items := by
  induction evs with
  | nil => intro items; rfl
  | cons e rest ih =>
    intro items
    cases e with
    | update m =>
      show appliedItems (applyTranslationMapping items m) rest = _
      rw [ih (applyTranslationMapping items m)]
      simp [updatesOf]
    | status m =>
      show appliedItems items rest = _
      rw [ih items]
      simp [updatesOf]
    | log m =>
      show appliedItems items rest = _
      rw [ih items]
      simp [updatesOf]
    | done =>
      show appliedItems items rest = _
      rw [ih items]
      simp [updatesOf]
    | error m =>
      show appliedItems items rest = _
      rw [ih items]
      simp [updatesOf]

theorem runHeader_no_terminal (items : List TranslationUnit) (modelId : List Char)
    (bs conc : Nat) :
    ∀ e ∈ runHeader items modelId bs conc, isTerminal e = false := by
  intro e he
  by_cases h : containsSub "image".data (modelId.map Char.toLower) <;>
    simp [runHeader, h] at he <;>
    rcases he with h2 | h2 <;>
    first
      | (rw [h2]; rfl)
      | (rcases h2 with h3 | h3 <;> rw [h3] <;> rfl)

theorem updatesOf_runHeader (items : List TranslationUnit) (modelId : List Char)
    (bs conc : Nat) :
    updatesOf (runHeader items modelId bs conc) = [] := by
  by_cases h : containsSub "image".data (modelId.map Char.toLower) <;>
    simp [runHeader, h, updatesOf]

/-- C2: fatal on empty mapping — if the results consumed before some point
all survive (skipped or non-empty mapping) and the result at that point is
non-skipped with an empty decoded mapping, then the run emits no `done`
event, its last event is the `error` terminal, the failing batch's raw
reply text appears in the log stream, the `update_translations` events are
exactly those of the earlier successful batches (the failing batch and
everything dequeued after it merge nothing), and the merged unit table
equals the table obtained from the earlier successful merges alone. -/
theorem empty_mapping_fatal (items : List TranslationUnit) (modelId : List Char)
    (batchSize concurrency : Nat) (pre post : List Completion) (flag : Bool)
    (r : BatchResult) (finalFlag : Bool)
    (hpend : pendingOf items ≠ [])
    (hpre : ∀ c ∈ pre, okCompletion c = true)
    (hskip : r.skipped = false) (hmap : r.mapping = []) :
    Event.done ∉ (runWorker items modelId batchSize concurrency
      (pre ++ ⟨flag, Except.ok r⟩ :: post) finalFlag).events ∧
    (runWorker items modelId batchSize concurrency
      (pre ++ ⟨flag, Except.ok r⟩ :: post) finalFlag).events.getLast? =
      some (Event.error ErrMsg.parseFail) ∧
    Event.log (LogMsg.rawReply r.raw) ∈ (runWorker items modelId batchSize concurrency
      (pre ++ ⟨flag, Except.ok r⟩ :: post) finalFlag).events ∧
    updatesOf (runWorker items modelId batchSize concurrency
      (pre ++ ⟨flag, Except.ok r⟩ :: post) finalFlag).events = successMappings pre ∧
    appliedItems items (runWorker items modelId batchSize concurrency
      (pre ++ ⟨flag, Except.ok r⟩ :: post) finalFlag).events =
      (successMappings pre).foldl applyTranslationMapping items := by
  have hsplit := runLoop_split
    (pyChunks batchSize (sortByIndex (pendingOf items))).length concurrency pre
    (⟨flag, Except.ok r⟩ :: post) hpre 0
  have hfatal := runLoop_fatal
    (pyChunks batchSize (sortByIndex (pendingOf items))).length concurrency
    (0 + (successMappings pre).length) flag r post hskip hmap
  rw [hfatal] at hsplit
  dsimp only at hsplit
  have hev : (runWorker items modelId batchSize concurrency
      (pre ++ ⟨flag, Except.ok r⟩ :: post) finalFlag).events =
      (runHeader items modelId batchSize concurrency ++
        [Event.log (LogMsg.totalBatches
          (pyChunks batchSize (sortByIndex (pendingOf items))).length)] ++
        ((runLoop (pyChunks batchSize (sortByIndex (pendingOf items))).length
            concurrency 0 pre).1 ++
          ((if flag then [Event.status StatusMsg.stopping] else []) ++
            [Event.log (LogMsg.batchFailFormat r.rng),
             Event.log (LogMsg.rawReply r.raw)]))) ++
      [Event.error ErrMsg.parseFail] := by
    unfold runWorker
    rw [if_neg hpend]
    dsimp only
    rw [hsplit]
  refine ⟨?_, ?_, ?_, ?_, ?_⟩
  · intro hmem
    rw [hev] at hmem
    rcases List.mem_append.mp hmem with h | h
    · rcases List.mem_append.mp h with h1 | h1
      · rcases List.mem_append.mp h1 with h2 | h2
        · have := runHeader_no_terminal items modelId batchSize concurrency _ h2
          simp [isTerminal] at this
        · simp at h2
      · rcases List.mem_append.mp h1 with h2 | h2
        · have := runLoop_no_terminal
            (pyChunks batchSize (sortByIndex (pendingOf items))).length concurrency
            pre 0 _ h2
          simp [isTerminal] at this
        · rcases List.mem_append.mp h2 with h3 | h3
          · by_cases hf : flag <;> simp [hf] at h3
          · simp at h3
    · simp at h
  · rw [hev]
    exact lastOfAppendOne _ _
  · rw [hev]
    refine List.mem_append.mpr (Or.inl ?_)
    refine List.mem_append.mpr (Or.inr ?_)
    refine List.mem_append.mpr (Or.inr ?_)
    refine List.mem_append.mpr (Or.inr ?_)
    simp
  · rw [hev]
    have hupd := updatesOf_runLoop
      (pyChunks batchSize (sortByIndex (pendingOf items))).length concurrency
      pre hpre 0
    by_cases hf : flag <;>
      simp [hf, updatesOf_append, updatesOf_runHeader, hupd, updatesOf_nil,
        updatesOf_status, updatesOf_log, updatesOf_error]
  · rw [appliedItems_eq]
    have h4 : updatesOf (runWorker items modelId batchSize concurrency
        (pre ++ ⟨flag, Except.ok r⟩ :: post) finalFlag).events = successMappings pre := by
      rw [hev]
      have hupd := updatesOf_runLoop
        (pyChunks batchSize (sortByIndex (pendingOf items))).length concurrency
        pre hpre 0
      by_cases hf : flag <;>
        simp [hf, updatesOf_append, updatesOf_runHeader, hupd, updatesOf_nil,
          updatesOf_status, updatesOf_log, updatesOf_error]
    rw [h4]

theorem empty_mapping_fatal_witness :
    (pendingOf [⟨1, [], ['s'], []⟩, ⟨2, [], ['t'], []⟩] ≠ [] ∧
     (∀ c ∈ [(⟨false, Except.ok ⟨[(1, ['a'])], some (1, 1), ['r'], false⟩⟩ : Completion)],
       okCompletion c = true) ∧
     (false : Bool) = false ∧ ([] : List (Nat × List Char)) = []) ∧
    (Event.done ∉ (runWorker [⟨1, [], ['s'], []⟩, ⟨2, [], ['t'], []⟩] ['m'] 1 1
      ([⟨false, Except.ok ⟨[(1, ['a'])], some (1, 1), ['r'], false⟩⟩] ++
        ⟨false, Except.ok ⟨[], some (2, 2), ['g'], false⟩⟩ :: []) false).events ∧
     (runWorker [⟨1, [], ['s'], []⟩, ⟨2, [], ['t'], []⟩] ['m'] 1 1
      ([⟨false, Except.ok ⟨[(1, ['a'])], some (1, 1), ['r'], false⟩⟩] ++
        ⟨false, Except.ok ⟨[], some (2, 2), ['g'], false⟩⟩ :: []) false).events.getLast? =
      some (Event.error ErrMsg.parseFail) ∧
     Event.log (LogMsg.rawReply ['g']) ∈ (runWorker [⟨1, [], ['s'], []⟩, ⟨2, [], ['t'], []⟩]
      ['m'] 1 1
      ([⟨false, Except.ok ⟨[(1, ['a'])], some (1, 1), ['r'], false⟩⟩] ++
        ⟨false, Except.ok ⟨[], some (2, 2), ['g'], false⟩⟩ :: []) false).events ∧
     updatesOf (runWorker [⟨1, [], ['s'], []⟩, ⟨2, [], ['t'], []⟩] ['m'] 1 1
      ([⟨false, Except.ok ⟨[(1, ['a'])], some (1, 1), ['r'], false⟩⟩] ++
        ⟨false, Except.ok ⟨[], some (2, 2), ['g'], false⟩⟩ :: []) false).events =
      successMappings [⟨false, Except.ok ⟨[(1, ['a'])], some (1, 1), ['r'], false⟩⟩] ∧
     appliedItems [⟨1, [], ['s'], []⟩, ⟨2, [], ['t'], []⟩]
      (runWorker [⟨1, [], ['s'], []⟩, ⟨2, [], ['t'], []⟩] ['m'] 1 1
       ([⟨false, Except.ok ⟨[(1, ['a'])], some (1, 1), ['r'], false⟩⟩] ++
         ⟨false, Except.ok ⟨[], some (2, 2), ['g'], false⟩⟩ :: []) false).events =
      (successMappings [⟨false, Except.ok ⟨[(1, ['a'])], some (1, 1), ['r'], false⟩⟩]).foldl
        applyTranslationMapping [⟨1, [], ['s'], []⟩, ⟨2, [], ['t'], []⟩]) :=
  ⟨⟨by decide, by decide, rfl, rfl⟩,
    empty_mapping_fatal [⟨1, [], ['s'], []⟩, ⟨2, [], ['t'], []⟩] ['m'] 1 1
      [⟨false, Except.ok ⟨[(1, ['a'])], some (1, 1), ['r'], false⟩⟩]
      [] false ⟨[], some (2, 2), ['g'], false⟩ false
      (by decide) (by decide) (by decide) (by decide)⟩

/-! ## Lemmas: pending selection and terminal protocol -/

theorem pyStrip_eq_nil_iff (l : List Char) :
    pyStrip l = [] ↔ ∀ c ∈ l, isPySpace c = true := by
  unfold pyStrip sRight sLeft
  constructor
  · intro h c hc
    have h1 : (l.dropWhile isPySpace).reverse.dropWhile isPySpace = [] := by
      have := congrArg List.reverse h
      simpa using this
    have h2 : ∀ x ∈ (l.dropWhile isPySpace).reverse, isPySpace x = true :=
      List.dropWhile_eq_nil_iff.mp h1
    have h3 : ∀ x ∈ l.dropWhile isPySpace, isPySpace x = true := by
      intro x hx
      exact h2 x (List.mem_reverse.mpr hx)
    have hc2 : c ∈ l.takeWhile isPySpace ++ l.dropWhile isPySpace := by
      rw [List.takeWhile_append_dropWhile]
      exact hc
    rcases List.mem_append.mp hc2 with h4 | h4
    · exact List.mem_takeWhile_imp h4
    · exact h3 c h4
  · intro h
    have h1 : l.dropWhile isPySpace = [] := List.dropWhile_eq_nil_iff.mpr h
    rw [h1]
    rfl

theorem countP_terminal_runHeader (items : List TranslationUnit) (modelId : List Char)
    (bs conc : Nat) :
    (runHeader items modelId bs conc).countP (fun e => isTerminal e) = 0 := by
  rw [List.countP_eq_zero]
  intro e he
  simp [runHeader_no_terminal items modelId bs conc e he]

theorem countP_terminal_runLoop (total conc completed : Nat) (cs : List Completion) :
    ((runLoop total conc completed cs).1).countP (fun e => isTerminal e) = 0 := by
  rw [List.countP_eq_zero]
  intro e he
  simp [runLoop_no_terminal total conc cs completed e he]

/-- C3 (amended): pending-unit selection returns exactly the units of the
table whose translation is empty or whitespace-only; consequently a run on
a table in which every unit has a non-whitespace translation builds zero
batches (hence makes zero remote calls) and emits, after the fixed
run-header status/log events, only the nothing-to-do log and the terminal
`done` event. -/
theorem pending_selection_idempotent :
    (∀ items (u : TranslationUnit),
      u ∈ pendingOf items ↔ (u ∈ items ∧ ∀ c ∈ u.tr, isPySpace c = true)) ∧
    (∀ items modelId batchSize concurrency
        (comps : List Completion) (finalFlag : Bool),
      (∀ u ∈ items, ¬ ∀ c ∈ u.tr, isPySpace c = true) →
      (runWorker items modelId batchSize concurrency comps finalFlag).batches = [] ∧
      (runWorker items modelId batchSize concurrency comps finalFlag).events =
        runHeader items modelId batchSize concurrency ++
          [Event.log LogMsg.nothingToDo, Event.done]) := by
  constructor
  · intro items u
    unfold pendingOf
    rw [List.mem_filter]
    constructor
    · intro ⟨h1, h2⟩
      exact ⟨h1, (pyStrip_eq_nil_iff u.tr).mp (by simpa using h2)⟩
    · intro ⟨h1, h2⟩
      exact ⟨h1, by simpa using (pyStrip_eq_nil_iff u.tr).mpr h2⟩
  · intro items modelId batchSize concurrency comps finalFlag h
    have hpe : pendingOf items = [] := by
      unfold pendingOf
      rw [List.filter_eq_nil_iff]
      intro u hu hcon
      exact h u hu ((pyStrip_eq_nil_iff u.tr).mp (by simpa using hcon))
    unfold runWorker
    rw [if_pos hpe]
    exact ⟨rfl, rfl⟩

/-- C3 counterexample to the claim as stated: on a fully-translated table
the run does not emit *only* the nothing-to-do log and `done` — the
run-header status and config-log events precede them. -/
theorem pending_idempotent_cex :
    (runWorker [⟨1, [], ['s'], ['x']⟩] ['m'] 5 3 [] false).events ≠
      [Event.log LogMsg.nothingToDo, Event.done] := by decide

/-- C5 (amended): every run emits exactly one terminal event and it is the
last event of the stream, but the terminal alphabet is `done` and `error`
only — cancellation is reported through a stopped-note log and a stopped
status followed by the `done` terminal, not by a distinct terminal kind;
a cancelled run that drains all its completions keeps every merged
translation of the completed batches. -/
theorem run_terminal_protocol :
    (∀ items modelId batchSize concurrency
        (comps : List Completion) (finalFlag : Bool),
      (runWorker items modelId batchSize concurrency comps finalFlag).events.countP
        (fun e => isTerminal e) = 1 ∧
      (∃ e, (runWorker items modelId batchSize concurrency
          comps finalFlag).events.getLast? = some e ∧ isTerminal e = true)) ∧
    (∀ items modelId batchSize concurrency (comps : List Completion),
      pendingOf items ≠ [] →
      (∀ c ∈ comps, okCompletion c = true) →
      (runWorker items modelId batchSize concurrency comps true).events =
        (runHeader items modelId batchSize concurrency ++
          [Event.log (LogMsg.totalBatches
            (pyChunks batchSize (sortByIndex (pendingOf items))).length)] ++
          (runLoop (pyChunks batchSize (sortByIndex (pendingOf items))).length
            concurrency 0 comps).1) ++
        [Event.log LogMsg.stoppedNote, Event.status StatusMsg.stoppedStatus,
         Event.done] ∧
      appliedItems items
        (runWorker items modelId batchSize concurrency comps true).events =
        (successMappings comps).foldl applyTranslationMapping items) := by
  constructor
  · intro items modelId batchSize concurrency comps finalFlag
    by_cases hpe : pendingOf items = []
    · have hev : (runWorker items modelId batchSize concurrency comps finalFlag).events =
          runHeader items modelId batchSize concurrency ++
            [Event.log LogMsg.nothingToDo, Event.done] := by
        unfold runWorker
        rw [if_pos hpe]
      rw [hev]
      constructor
      · rw [List.countP_append, countP_terminal_runHeader]
        rfl
      · refine ⟨Event.done, ?_, rfl⟩
        rw [List.getLast?_append_of_ne_nil _ (by simp)]
        rfl
    · match herr : (runLoop (pyChunks batchSize (sortByIndex (pendingOf items))).length
          concurrency 0 comps).2 with
      | some e =>
        have hev : (runWorker items modelId batchSize concurrency comps finalFlag).events =
            ((runHeader items modelId batchSize concurrency ++
              [Event.log (LogMsg.totalBatches
                (pyChunks batchSize (sortByIndex (pendingOf items))).length)]) ++
              (runLoop (pyChunks batchSize (sortByIndex (pendingOf items))).length
                concurrency 0 comps).1) ++
            [Event.error e] := by
          unfold runWorker
          rw [if_neg hpe]
          dsimp only
          rw [herr]
        rw [hev]
        constructor
        · rw [List.countP_append, List.countP_append, List.countP_append,
            countP_terminal_runHeader, countP_terminal_runLoop]
          rfl
        · refine ⟨Event.error e, ?_, rfl⟩
          exact lastOfAppendOne _ _
      | none =>
        have hev : (runWorker items modelId batchSize concurrency comps finalFlag).events =
            ((runHeader items modelId batchSize concurrency ++
              [Event.log (LogMsg.totalBatches
                (pyChunks batchSize (sortByIndex (pendingOf items))).length)]) ++
              (runLoop (pyChunks batchSize (sortByIndex (pendingOf items))).length
                concurrency 0 comps).1) ++
            ((if finalFlag then
              [Event.log LogMsg.stoppedNote, Event.status StatusMsg.stoppedStatus]
             else []) ++ [Event.done]) := by
          unfold runWorker
          rw [if_neg hpe]
          dsimp only
          rw [herr]
        rw [hev]
        constructor
        · rw [List.countP_append, List.countP_append, List.countP_append,
            countP_terminal_runHeader, countP_terminal_runLoop,
            List.countP_append]
          by_cases hf : finalFlag <;> simp [hf] <;> rfl
        · refine ⟨Event.done, ?_, rfl⟩
          rw [List.getLast?_append_of_ne_nil _ (by
            intro hcon
            have := congrArg List.length hcon
            by_cases hf : finalFlag <;> simp [hf] at this)]
          by_cases hf : finalFlag <;> simp [hf]
  · intro items modelId batchSize concurrency comps hpe hok
    have herr : (runLoop (pyChunks batchSize (sortByIndex (pendingOf items))).length
        concurrency 0 comps).2 = none := by
      have hs := runLoop_split (pyChunks batchSize (sortByIndex (pendingOf items))).length
        concurrency comps [] hok 0
      rw [List.append_nil] at hs
      rw [hs]
      rfl
    have hev : (runWorker items modelId batchSize concurrency comps true).events =
        ((runHeader items modelId batchSize concurrency ++
          [Event.log (LogMsg.totalBatches
            (pyChunks batchSize (sortByIndex (pendingOf items))).length)]) ++
          (runLoop (pyChunks batchSize (sortByIndex (pendingOf items))).length
            concurrency 0 comps).1) ++
        [Event.log LogMsg.stoppedNote, Event.status StatusMsg.stoppedStatus,
         Event.done] := by
      unfold runWorker
      rw [if_neg hpe]
      dsimp only
      rw [herr]
      simp
    constructor
    · rw [hev]
    · rw [appliedItems_eq, hev]
      have hupd := updatesOf_runLoop
        (pyChunks batchSize (sortByIndex (pendingOf items))).length concurrency
        comps hok 0
      rw [updatesOf_append, updatesOf_append, updatesOf_append,
        updatesOf_runHeader, hupd]
      simp [updatesOf_log, updatesOf_status, updatesOf_done, updatesOf_nil]

/-- C5 counterexample to the claim as stated: a run during which the stop
flag was set still ends with the `done` terminal event — the program has
no distinct `stopped` terminal event kind. -/
theorem run_stopped_terminal_cex :
    (runWorker [⟨1, [], ['s'], []⟩] ['m'] 1 1
      [⟨true, Except.ok ⟨[(1, ['a'])], some (1, 1), ['r'], false⟩⟩] true).events.getLast? =
      some Event.done := by decide

/-! ## Lemmas: SRT parser -/

/-- The store-level table after an SRT parse: `on_parse_to_table` sorts the
parsed units by index. -/
def parseSrtTable (text : List Char) : List TranslationUnit :=
  sortByIndex (parseSrt text)

/-- Accepted block payloads numbered left to right: the payload at position
`k` of the accepted list receives fallback index `n + k + 1`. -/
def srtAssign : Nat → List (Option Nat × List Char × List Char) →
    List TranslationUnit
  | _, [] => []
  | n, (idx?, t, s) :: rest => ⟨idx?.getD (n + 1), t, s, []⟩ :: srtAssign (n + 1) rest

theorem srtLoop_eq :
    ∀ (bs : List (List Char)) (acc : List TranslationUnit),
      srtLoop bs acc = acc ++ srtAssign acc.length (bs.filterMap blockParse) := by
  intro bs
  induction bs with
  | nil =>
    intro acc
    simp [srtLoop, srtAssign]
  | cons b bs2 ih =>
    intro acc
    match hb : blockParse b with
    | none =>
      have hstep : srtLoop (b :: bs2) acc = srtLoop bs2 acc := by
        simp [srtLoop, hb]
      rw [hstep, ih acc, List.filterMap_cons, hb]
    | some (idx?, t, s) =>
      have hstep : srtLoop (b :: bs2) acc =
          srtLoop bs2 (acc ++ [⟨idx?.getD (acc.length + 1), t, s, []⟩]) := by
        simp [srtLoop, hb]
      rw [hstep, ih, List.filterMap_cons, hb]
      simp [srtAssign]

theorem srtAssign_length :
    ∀ (l : List (Option Nat × List Char × List Char)) (n : Nat),
      (srtAssign n l).length = l.length := by
  intro l
  induction l with
  | nil => intro n; rfl
  | cons e rest ih =>
    intro n
    rcases e with ⟨idx?, t, s⟩
    simp [srtAssign, ih]

theorem srtAssign_append :
    ∀ (l1 l2 : List (Option Nat × List Char × List Char)) (n : Nat),
      srtAssign n (l1 ++ l2) = srtAssign n l1 ++ srtAssign (n + l1.length) l2 := by
  intro l1
  induction l1 with
  | nil => intro l2 n; simp [srtAssign]
  | cons e rest ih =>
    intro l2 n
    rcases e with ⟨idx?, t, s⟩
    simp only [List.cons_append, srtAssign, List.length_cons, List.append_eq]
    rw [ih l2 (n + 1)]
    have : n + 1 + rest.length = n + (rest.length + 1) := by omega
    rw [this]

theorem srtAssign_mem :
    ∀ (l : List (Option Nat × List Char × List Char)) (n : Nat)
      (u : TranslationUnit), u ∈ srtAssign n l → ∃ e ∈ l, u.time = e.2.1 := by
  intro l
  induction l with
  | nil =>
    intro n u hu
    simp [srtAssign] at hu
  | cons e rest ih =>
    intro n u hu
    rcases e with ⟨idx?, t, s⟩
    rcases List.mem_cons.mp hu with h | h
    · exact ⟨(idx?, t, s), List.mem_cons_self _ _, by rw [h]⟩
    · obtain ⟨e2, he2, ht⟩ := ih (n + 1) u h
      exact ⟨e2, List.mem_cons_of_mem _ he2, ht⟩

theorem parseSrt_eq_loop (text : List Char) :
    parseSrt text = srtLoop (srtBlocks text) [] := by
  unfold parseSrt srtBlocks
  by_cases h : pyStrip (normalizeNl text) = [] <;> simp [h, srtLoop]

theorem length_filterMap_blockParse :
    ∀ (bs : List (List Char)),
      (bs.filterMap blockParse).length =
        bs.countP (fun b => (blockParse b).isSome) := by
  intro bs
  induction bs with
  | nil => rfl
  | cons b bs2 ih =>
    rw [List.filterMap_cons, List.countP_cons]
    match hb : blockParse b with
    | none => simp [ih]
    | some e => simp [ih]

theorem findTimeLine_isSome (lines : List (List Char)) (s : Nat) :
    (findTimeLine lines s).isSome =
      (containsSub arrowMark (lines.getD s []) ||
        containsSub arrowMark (lines.getD (s + 1) [])) := by
  unfold findTimeLine
  by_cases h1 : containsSub arrowMark (lines.getD s []) = true
  · rw [if_pos h1, h1, Bool.true_or]
    rfl
  · have h1f : containsSub arrowMark (lines.getD s []) = false :=
      Bool.not_eq_true _ ▸ h1
    rw [if_neg h1, h1f, Bool.false_or]
    by_cases h2 : containsSub arrowMark (lines.getD (s + 1) []) = true
    · rw [if_pos h2, h2]
      rfl
    · have h2f : containsSub arrowMark (lines.getD (s + 1) []) = false :=
        Bool.not_eq_true _ ▸ h2
      rw [if_neg h2, h2f]
      rfl

theorem wellFormed_eq_isSome (b : List Char) :
    wellFormedSrtBlock b = (blockParse b).isSome := by
  unfold wellFormedSrtBlock blockParse
  dsimp only
  by_cases hlen : (blockLines b).length < 2
  · rw [if_pos hlen]
    have h2 : ¬ 2 ≤ (blockLines b).length := by omega
    rw [decide_eq_false h2, Bool.false_and]
    rfl
  · rw [if_neg hlen]
    have h2 : 2 ≤ (blockLines b).length := by omega
    rw [decide_eq_true h2, Bool.true_and]
    rw [← findTimeLine_isSome (blockLines b)
      (if isNumericStr (pyStrip ((blockLines b).getD 0 [])) then 1 else 0)]
    match hft : findTimeLine (blockLines b)
        (if isNumericStr (pyStrip ((blockLines b).getD 0 [])) then 1 else 0) with
    | none => rfl
    | some (tl, ns) => rfl

theorem mem_of_containsSub : ∀ (l : List Char),
    containsSub arrowMark l = true → '-' ∈ l := by
  intro l
  induction l with
  | nil =>
    intro h
    simp [containsSub, arrowMark, List.isPrefixOf] at h
  | cons x xs ih =>
    intro h
    have h2 : arrowMark.isPrefixOf (x :: xs) = true ∨ containsSub arrowMark xs = true := by
      simpa [containsSub] using h
    rcases h2 with h1 | h1
    · rw [List.isPrefixOf_iff_prefix] at h1
      obtain ⟨t2, ht⟩ := h1
      rw [← ht]
      exact List.mem_append_left _ (by simp [arrowMark])
    · exact List.mem_cons_of_mem _ (ih h1)

theorem findTimeLine_arrow (lines : List (List Char)) (s : Nat)
    (tl : List Char) (ns : Nat) (h : findTimeLine lines s = some (tl, ns)) :
    containsSub arrowMark tl = true := by
  unfold findTimeLine at h
  by_cases h1 : containsSub arrowMark (lines.getD s [])
  · rw [if_pos h1] at h
    obtain ⟨htl, _⟩ := Prod.mk.injEq .. ▸ Option.some.injEq .. ▸ h
    rw [← htl]
    exact h1
  · rw [if_neg h1] at h
    by_cases h2 : containsSub arrowMark (lines.getD (s + 1) [])
    · rw [if_pos h2] at h
      obtain ⟨htl, _⟩ := Prod.mk.injEq .. ▸ Option.some.injEq .. ▸ h
      rw [← htl]
      exact h2
    · rw [if_neg h2] at h
      exact absurd h (by simp)

theorem blockParse_time_ne_nil (b : List Char) (idx? : Option Nat)
    (t s : List Char) (h : blockParse b = some (idx?, t, s)) : t ≠ [] := by
  unfold blockParse at h
  dsimp only at h
  by_cases hlen : (blockLines b).length < 2
  · rw [if_pos hlen] at h
    exact absurd h (by simp)
  · rw [if_neg hlen] at h
    match hft : findTimeLine (blockLines b)
        (if isNumericStr (pyStrip ((blockLines b).getD 0 [])) then 1 else 0) with
    | none =>
      rw [hft] at h
      exact absurd h (by simp)
    | some (tl, ns) =>
      rw [hft] at h
      have harrow := findTimeLine_arrow _ _ _ _ hft
      rw [Option.some.injEq] at h
      have ht : pyStrip tl = t := congrArg (fun p => p.2.1) h
      rw [← ht]
      intro hcon
      rw [pyStrip_eq_nil_iff] at hcon
      have := hcon '-' (mem_of_containsSub tl harrow)
      simp [isPySpace] at this

/-- C4: for every input text, the SRT table (parse followed by the store's
index sort) contains exactly one unit per well-formed block — at least two
non-empty lines, an optional leading numeric index line, and a `-->` line
within the first two lines after the optional index — is sorted ascending
by index, and every unit carries a non-empty time-range string. -/
theorem srt_parse_wellformed_count_sorted (text : List Char) :
    (parseSrtTable text).length = (srtBlocks text).countP wellFormedSrtBlock ∧
    List.Sorted leIdx (parseSrtTable text) ∧
    ∀ u ∈ parseSrtTable text, u.time ≠ [] := by
  refine ⟨?_, ?_, ?_⟩
  · unfold parseSrtTable
    rw [sortByIndex_length, parseSrt_eq_loop, srtLoop_eq]
    simp only [List.nil_append, List.length_nil]
    rw [srtAssign_length, length_filterMap_blockParse]
    apply List.countP_congr
    intro b hb
    rw [wellFormed_eq_isSome]
  · exact List.sorted_insertionSort leIdx (parseSrt text)
  · intro u hu
    have hu2 : u ∈ parseSrt text :=
      (List.perm_insertionSort leIdx (parseSrt text)).mem_iff.mp hu
    rw [parseSrt_eq_loop, srtLoop_eq] at hu2
    simp only [List.nil_append, List.length_nil] at hu2
    obtain ⟨e, he, ht⟩ := srtAssign_mem _ 0 u hu2
    obtain ⟨b2, hb2, hbp⟩ := List.mem_filterMap.mp he
    rcases e with ⟨i?, t2, s2⟩
    rw [ht]
    exact blockParse_time_ne_nil b2 i? t2 s2 hbp

/-- C9: SRT implicit numbering skips discarded blocks — `parse_srt` is the
block fold; a block the parser discards (no `-->` line in the window)
contributes no unit; and a well-formed block with no explicit numeric index
line yields the unit at the position equal to the number of previously
accepted blocks, carrying index one plus that count. -/
theorem srt_implicit_numbering :
    (∀ text, parseSrt text = srtLoop (srtBlocks text) []) ∧
    (∀ (pre post : List (List Char)) (b : List Char),
      blockParse b = none →
      srtLoop (pre ++ b :: post) [] = srtLoop (pre ++ post) []) ∧
    (∀ (pre post : List (List Char)) (b t s : List Char),
      blockParse b = some (none, t, s) →
      (srtLoop (pre ++ b :: post) []).getD (pre.filterMap blockParse).length unit0 =
        ⟨(pre.filterMap blockParse).length + 1, t, s, []⟩) := by
  refine ⟨parseSrt_eq_loop, ?_, ?_⟩
  · intro pre post b hb
    rw [srtLoop_eq, srtLoop_eq, List.filterMap_append, List.filterMap_append,
      List.filterMap_cons, hb]
  · intro pre post b t s hb
    rw [srtLoop_eq]
    simp only [List.nil_append, List.length_nil]
    rw [List.filterMap_append, List.filterMap_cons, hb, srtAssign_append]
    dsimp only
    have hlen2 : (srtAssign 0 (List.filterMap blockParse pre)).length =
        (List.filterMap blockParse pre).length := srtAssign_length _ 0
    rw [List.getD_append_right _ _ unit0 (List.filterMap blockParse pre).length
      (by rw [hlen2])]
    rw [hlen2, Nat.sub_self]
    simp [srtAssign]

/-! ## Lemmas: stripping structure (towards the codec round trip) -/

theorem dropWhile_idem (p : Char → Bool) :
    ∀ (l : List Char), (l.dropWhile p).dropWhile p = l.dropWhile p := by
  intro l
  induction l with
  | nil => rfl
  | cons c t ih =>
    by_cases h : p c
    · rw [List.dropWhile_cons_of_pos h]
      exact ih
    · rw [List.dropWhile_cons_of_neg h, List.dropWhile_cons_of_neg h]

theorem dropWhile_append_all (p : Char → Bool) :
    ∀ (a b : List Char), (∀ c ∈ a, p c = true) →
      (a ++ b).dropWhile p = b.dropWhile p := by
  intro a
  induction a with
  | nil => intro b h; rfl
  | cons c t ih =>
    intro b h
    have hc : p c = true := h c (List.mem_cons_self c t)
    rw [List.cons_append, List.dropWhile_cons_of_pos hc]
    exact ih b (fun x hx => h x (List.mem_cons_of_mem c hx))

theorem dropWhile_head_false (p : Char → Bool) :
    ∀ (l : List Char) (c : Char) (t : List Char),
      l.dropWhile p = c :: t → p c = false := by
  intro l
  induction l with
  | nil =>
    intro c t h
    simp at h
  | cons x xs ih =>
    intro c t h
    by_cases hx : p x
    · rw [List.dropWhile_cons_of_pos hx] at h
      exact ih c t h
    · rw [List.dropWhile_cons_of_neg hx] at h
      obtain ⟨h1, -⟩ := List.cons.injEq .. ▸ h
      rw [← h1]
      exact Bool.not_eq_true _ ▸ hx

theorem sRight_idem (x : List Char) : sRight (sRight x) = sRight x := by
  unfold sRight
  rw [List.reverse_reverse, dropWhile_idem]

theorem sRight_append_spaces (y w : List Char)
    (h : ∀ c ∈ w, isPySpace c = true) : sRight (y ++ w) = sRight y := by
  unfold sRight
  rw [List.reverse_append, dropWhile_append_all isPySpace w.reverse y.reverse
    (fun c hc => h c (List.mem_reverse.mp hc))]

theorem exists_sRight_decomp (x : List Char) :
    ∃ w, x = sRight x ++ w ∧ ∀ c ∈ w, isPySpace c = true := by
  refine ⟨(x.reverse.takeWhile isPySpace).reverse, ?_, ?_⟩
  · unfold sRight
    rw [← List.reverse_append, List.takeWhile_append_dropWhile, List.reverse_reverse]
  · intro c hc
    exact List.mem_takeWhile_imp (List.mem_reverse.mp hc)

theorem sRight_head (x : List Char) (c : Char) (t : List Char)
    (h : sRight x = c :: t) : ∃ t2, x = c :: t2 := by
  obtain ⟨w, hw, -⟩ := exists_sRight_decomp x
  rw [h] at hw
  exact ⟨t ++ w, hw⟩

theorem sLeft_cons_false (c : Char) (l : List Char) (h : isPySpace c = false) :
    sLeft (c :: l) = c :: l := by
  unfold sLeft
  rw [List.dropWhile_cons_of_neg (by rw [h]; exact Bool.false_ne_true)]

theorem sLeft_pyStrip (y : List Char) : sLeft (pyStrip y) = pyStrip y := by
  match h : pyStrip y with
  | [] => rfl
  | c :: t =>
    have h2 : sRight (sLeft y) = c :: t := h
    obtain ⟨t2, ht2⟩ := sRight_head _ _ _ h2
    have hc : isPySpace c = false := dropWhile_head_false isPySpace y c t2 ht2
    exact sLeft_cons_false c t hc

theorem sRight_pyStrip (y : List Char) : sRight (pyStrip y) = pyStrip y := by
  unfold pyStrip
  rw [sRight_idem]

theorem pyStrip_idem (y : List Char) : pyStrip (pyStrip y) = pyStrip y := by
  show sRight (sLeft (pyStrip y)) = pyStrip y
  rw [sLeft_pyStrip, sRight_pyStrip]

theorem all_space_sRight_eq_nil (y : List Char) (h : ∀ c ∈ y, isPySpace c = true) :
    sRight y = [] := by
  unfold sRight
  rw [List.dropWhile_eq_nil_iff.mpr (fun c hc => h c (List.mem_reverse.mp hc))]
  rfl

theorem pyStrip_sRight (x : List Char) : pyStrip (sRight x) = pyStrip x := by
  obtain ⟨w, hw, hws⟩ := exists_sRight_decomp x
  by_cases hnil : sLeft (sRight x) = []
  · have hall : ∀ c ∈ sRight x, isPySpace c = true := by
      have := List.dropWhile_eq_nil_iff.mp hnil
      exact this
    have h1 : pyStrip (sRight x) = [] := by
      show sRight (sLeft (sRight x)) = []
      rw [hnil]
      rfl
    have hallx : ∀ c ∈ x, isPySpace c = true := by
      intro c hc
      rw [hw] at hc
      rcases List.mem_append.mp hc with h2 | h2
      · exact hall c h2
      · exact hws c h2
    have h2 : pyStrip x = [] := by
      show sRight (sLeft x) = []
      have h3 : sLeft x = [] := by
        unfold sLeft
        exact List.dropWhile_eq_nil_iff.mpr hallx
      rw [h3]
      rfl
    rw [h1, h2]
  · show sRight (sLeft (sRight x)) = sRight (sLeft x)
    have hsplitx : sLeft x = sLeft (sRight x) ++ w := by
      conv_lhs => rw [hw]
      unfold sLeft
      rw [List.dropWhile_append]
      rw [if_neg (by
        intro hcon
        exact hnil (List.isEmpty_iff.mp hcon))]
  -- after the rewrite the remaining goal is closed by rfl
    rw [hsplitx, sRight_append_spaces _ w hws]

theorem mem_pyStrip (x : List Char) (c : Char) (h : c ∈ pyStrip x) : c ∈ x := by
  have h1 : c ∈ sLeft x := by
    obtain ⟨w, hw, -⟩ := exists_sRight_decomp (sLeft x)
    have : c ∈ sRight (sLeft x) := h
    rw [hw]
    exact List.mem_append_left w this
  have hx : x = x.takeWhile isPySpace ++ x.dropWhile isPySpace :=
    (List.takeWhile_append_dropWhile ..).symm
  rw [hx]
  exact List.mem_append_right _ h1

/-! ## Lemmas: decimal rendering -/

theorem digitChar_isDigit (d : Nat) (h : d < 10) : (digitChar d).isDigit = true := by
  interval_cases d <;> decide

theorem digitChar_toNat (d : Nat) (h : d < 10) : (digitChar d).toNat = 48 + d := by
  interval_cases d <;> decide

theorem isDigit_not_space (c : Char) (h : c.isDigit = true) : isPySpace c = false := by
  cases hs : isPySpace c
  · rfl
  · exfalso
    have hsplit : c = ' ' ∨ c = '\t' ∨ c = '\n' ∨ c = '\x0D' ∨ c = '\x0B' ∨ c = '\x0C' := by
      unfold isPySpace at hs
      simp only [Bool.or_eq_true, decide_eq_true_eq] at hs
      tauto
    rcases hsplit with h1 | h1 | h1 | h1 | h1 | h1 <;> subst h1 <;> exact absurd h (by decide)

theorem natDigitsAux_acc :
    ∀ (fuel : Nat), ∀ (n : Nat) (acc : List Char), n < fuel →
      natDigitsAux fuel n acc = natDigitsAux (n + 1) n [] ++ acc := by
  intro fuel
  induction fuel using Nat.strong_induction_on with
  | _ fuel ih =>
    intro n acc hn
    match fuel, hn with
    | f + 1, hn =>
      by_cases h10 : n < 10
      · simp [natDigitsAux, h10]
      · have hrec : n / 10 < n := Nat.div_lt_self (by omega) (by omega)
        have hf : n / 10 < f := by omega
        have hn2 : n / 10 < n := hrec
        simp only [natDigitsAux, if_neg h10]
        rw [ih f (by omega) (n / 10) (digitChar (n % 10) :: acc) hf,
          ih n (by omega) (n / 10) [digitChar (n % 10)] hn2, List.append_assoc]
        rfl

theorem natDigits_rec (n : Nat) :
    natDigits n = if n < 10 then [digitChar n]
      else natDigits (n / 10) ++ [digitChar (n % 10)] := by
  by_cases h10 : n < 10
  · simp [natDigits, natDigitsAux, h10]
  · rw [if_neg h10]
    unfold natDigits
    have h1 : natDigitsAux (n + 1) n [] = natDigitsAux n (n / 10) [digitChar (n % 10)] := by
      simp [natDigitsAux, h10]
    rw [h1, natDigitsAux_acc n (n / 10) [digitChar (n % 10)]
      (Nat.div_lt_self (by omega) (by omega))]

theorem natDigits_all_digit :
    ∀ (n : Nat), ∀ c ∈ natDigits n, c.isDigit = true := by
  intro n
  induction n using Nat.strong_induction_on with
  | _ n ih =>
    intro c hc
    rw [natDigits_rec] at hc
    by_cases h10 : n < 10
    · rw [if_pos h10] at hc
      rcases List.mem_cons.mp hc with h | h
      · rw [h]
        exact digitChar_isDigit n h10
      · simp at h
    · rw [if_neg h10] at hc
      rcases List.mem_append.mp hc with h | h
      · exact ih (n / 10) (Nat.div_lt_self (by omega) (by omega)) c h
      · rcases List.mem_cons.mp h with h2 | h2
        · rw [h2]
          exact digitChar_isDigit (n % 10) (Nat.mod_lt n (by omega))
        · simp at h2

theorem natDigits_ne_nil (n : Nat) : natDigits n ≠ [] := by
  rw [natDigits_rec]
  by_cases h10 : n < 10
  · rw [if_pos h10]
    simp
  · rw [if_neg h10]
    simp

theorem natOfDigits_natDigits : ∀ (n : Nat), natOfDigits (natDigits n) = n := by
  intro n
  induction n using Nat.strong_induction_on with
  | _ n ih =>
    rw [natDigits_rec]
    by_cases h10 : n < 10
    · rw [if_pos h10]
      unfold natOfDigits
      rw [List.foldl_cons, List.foldl_nil, digitChar_toNat n h10]
      omega
    · rw [if_neg h10]
      unfold natOfDigits
      rw [List.foldl_append]
      have hmid := ih (n / 10) (Nat.div_lt_self (by omega) (by omega))
      unfold natOfDigits at hmid
      rw [hmid, List.foldl_cons, List.foldl_nil,
        digitChar_toNat (n % 10) (Nat.mod_lt n (by omega))]
      omega

/-! ## Lemmas: reply lines -/

theorem takeWhile_digits :
    ∀ (nd rest : List Char), (∀ c ∈ nd, c.isDigit = true) →
      (nd ++ ':' :: rest).takeWhile Char.isDigit = nd := by
  intro nd
  induction nd with
  | nil =>
    intro rest h
    rw [List.nil_append, List.takeWhile_cons_of_neg (by decide)]
  | cons c t ih =>
    intro rest h
    rw [List.cons_append,
      List.takeWhile_cons_of_pos (h c (List.mem_cons_self c t)),
      ih rest (fun x hx => h x (List.mem_cons_of_mem c hx))]

theorem replaceCRLF_no_cr : ∀ (l : List Char), '\x0D' ∉ l → replaceCRLF l = l := by
  intro l
  induction l with
  | nil => intro h; rfl
  | cons c rest ih =>
    intro h
    have hc : c ≠ '\x0D' := fun hh => h (hh ▸ List.mem_cons_self c rest)
    have h2 : '\x0D' ∉ rest := fun hm => h (List.mem_cons_of_mem c hm)
    rw [replaceCRLF.eq_def]
    split
    · rename_i heq
      obtain ⟨h3, -⟩ := List.cons.injEq .. ▸ heq
      exact absurd h3 hc
    · rename_i c2 rest2 heq
      obtain ⟨h3, h4⟩ := List.cons.injEq .. ▸ heq
      rw [← h3, ← h4, ih h2]
    · rename_i heq
      exact absurd heq (by simp)

theorem normalizeNl_no_cr (l : List Char) (h : '\x0D' ∉ l) : normalizeNl l = l := by
  unfold normalizeNl
  rw [replaceCRLF_no_cr l h]
  have : ∀ (m : List Char), '\x0D' ∉ m →
      m.map (fun c => if c = '\x0D' then '\n' else c) = m := by
    intro m
    induction m with
    | nil => intro hm; rfl
    | cons c rest ih =>
      intro hm
      have hc : c ≠ '\x0D' := fun hh => hm (hh ▸ List.mem_cons_self c rest)
      rw [List.map_cons, if_neg hc, ih (fun h2 => hm (List.mem_cons_of_mem c h2))]
  exact this l h

theorem joinNl_cons (l : List Char) (ls : List (List Char)) (h : ls ≠ []) :
    joinNl (l :: ls) = l ++ '\n' :: joinNl ls := by
  match ls, h with
  | l2 :: ls2, _ => rfl

theorem mem_joinNl :
    ∀ (ls : List (List Char)) (c : Char), c ∈ joinNl ls →
      c = '\n' ∨ ∃ l ∈ ls, c ∈ l := by
  intro ls
  induction ls with
  | nil =>
    intro c hc
    simp [joinNl] at hc
  | cons l ls2 ih =>
    intro c hc
    match ls2, hc with
    | [], hc =>
      exact Or.inr ⟨l, List.mem_cons_self l [], hc⟩
    | l2 :: ls3, hc =>
      rw [joinNl_cons l (l2 :: ls3) (by simp)] at hc
      rcases List.mem_append.mp hc with h1 | h1
      · exact Or.inr ⟨l, List.mem_cons_self _ _, h1⟩
      · rcases List.mem_cons.mp h1 with h2 | h2
        · exact Or.inl h2
        · rcases ih c h2 with h3 | ⟨l3, hl3, hcl3⟩
          · exact Or.inl h3
          · exact Or.inr ⟨l3, List.mem_cons_of_mem _ hl3, hcl3⟩

theorem joinNl_snoc :
    ∀ (ls : List (List Char)) (a : List Char), ls ≠ [] →
      joinNl (ls ++ [a]) = joinNl ls ++ '\n' :: a := by
  intro ls
  induction ls with
  | nil =>
    intro a h
    exact absurd rfl h
  | cons l ls2 ih =>
    intro a h
    match ls2 with
    | [] => rfl
    | l2 :: ls3 =>
      rw [List.cons_append, joinNl_cons l ((l2 :: ls3) ++ [a]) (by simp),
        joinNl_cons l (l2 :: ls3) (by simp), ih a (by simp), List.append_assoc]
      simp

theorem splitOnChar_cons_pos (c : Char) (xs : List Char) :
    splitOnChar c (c :: xs) = [] :: splitOnChar c xs := by
  simp [splitOnChar]

theorem splitOnChar_cons_neg (c x : Char) (xs : List Char) (h : ¬ x = c) :
    splitOnChar c (x :: xs) =
      match splitOnChar c xs with
      | [] => [[x]]
      | h2 :: t => (x :: h2) :: t := by
  simp [splitOnChar, h]

theorem splitOnChar_no_sep :
    ∀ (l : List Char) (c : Char), c ∉ l → splitOnChar c l = [l] := by
  intro l
  induction l with
  | nil => intro c h; rfl
  | cons x xs ih =>
    intro c h
    have hx : ¬ x = c := fun hh => h (by rw [hh]; exact List.mem_cons_self c xs)
    have h2 : c ∉ xs := fun hm => h (List.mem_cons_of_mem x hm)
    rw [splitOnChar_cons_neg c x xs hx, ih c h2]

theorem splitOnChar_append_cons :
    ∀ (a : List Char) (c : Char) (r : List Char), c ∉ a →
      splitOnChar c (a ++ c :: r) = a :: splitOnChar c r := by
  intro a
  induction a with
  | nil =>
    intro c r h
    rw [List.nil_append]
    exact splitOnChar_cons_pos c r
  | cons x xs ih =>
    intro c r h
    have hx : ¬ x = c := fun hh => h (by rw [hh]; exact List.mem_cons_self c xs)
    have h2 : c ∉ xs := fun hm => h (List.mem_cons_of_mem x hm)
    rw [List.cons_append, splitOnChar_cons_neg c x (xs ++ c :: r) hx, ih c r h2]

theorem splitOnChar_joinNl :
    ∀ (ls : List (List Char)), ls ≠ [] → (∀ l ∈ ls, '\n' ∉ l) →
      splitOnChar '\n' (joinNl ls) = ls := by
  intro ls
  induction ls with
  | nil =>
    intro h
    exact absurd rfl h
  | cons l ls2 ih =>
    intro h hn
    match ls2 with
    | [] =>
      show splitOnChar '\n' l = [l]
      exact splitOnChar_no_sep l '\n' (hn l (List.mem_cons_self l []))
    | l2 :: ls3 =>
      rw [joinNl_cons l (l2 :: ls3) (by simp),
        splitOnChar_append_cons l '\n' (joinNl (l2 :: ls3))
          (hn l (List.mem_cons_self _ _)),
        ih (by simp) (fun x hx => hn x (List.mem_cons_of_mem l hx))]

theorem mem_sRight_sub (x : List Char) (c : Char) (h : c ∈ sRight x) : c ∈ x := by
  obtain ⟨w, hw, -⟩ := exists_sRight_decomp x
  rw [hw]
  exact List.mem_append_left w h

theorem sRight_append_keep (a b : List Char)
    (h : ∃ c ∈ b, isPySpace c = false) : sRight (a ++ b) = a ++ sRight b := by
  unfold sRight
  rw [List.reverse_append, List.dropWhile_append, if_neg (by
    intro hcon
    obtain ⟨c, hc, hcs⟩ := h
    have := List.dropWhile_eq_nil_iff.mp (List.isEmpty_iff.mp hcon) c
      (List.mem_reverse.mpr hc)
    rw [hcs] at this
    exact Bool.false_ne_true this)]
  rw [List.reverse_append, List.reverse_reverse]

theorem lineMatch_digits_colon (nd rest : List Char)
    (hdig : ∀ c ∈ nd, c.isDigit = true) (hne : nd ≠ []) :
    lineMatch (nd ++ ':' :: rest) =
      some (natOfDigits nd, pyStrip (rest.dropWhile isPySpace)) := by
  unfold lineMatch
  dsimp only
  rw [takeWhile_digits nd rest hdig, if_neg hne, List.drop_left,
    List.dropWhile_cons_of_neg (by decide)]
  rfl

theorem pyStrip_line_of_nil (idx : Nat) :
    pyStrip (natDigits idx ++ [':', ' ']) = natDigits idx ++ [':'] := by
  cases hnd : natDigits idx with
  | nil => exact absurd hnd (natDigits_ne_nil idx)
  | cons d nd2 =>
    have hd : isPySpace d = false :=
      isDigit_not_space d (natDigits_all_digit idx d (hnd ▸ List.mem_cons_self d nd2))
    show sRight (sLeft ((d :: nd2) ++ [':', ' '])) = (d :: nd2) ++ [':']
    rw [List.cons_append, sLeft_cons_false d (nd2 ++ [':', ' ']) hd,
      ← List.cons_append]
    unfold sRight
    have hrev : ((d :: nd2) ++ [':', ' ']).reverse = ' ' :: ':' :: (d :: nd2).reverse := by
      simp
    rw [hrev, List.dropWhile_cons_of_pos (by decide),
      List.dropWhile_cons_of_neg (by decide)]
    simp

theorem pyStrip_line_of_cons (idx : Nat) (flat : List Char)
    (hflat : pyStrip flat = flat) (hfc : flat ≠ []) :
    pyStrip (natDigits idx ++ ':' :: ' ' :: flat) =
      natDigits idx ++ ':' :: ' ' :: flat := by
  cases hnd : natDigits idx with
  | nil => exact absurd hnd (natDigits_ne_nil idx)
  | cons d nd2 =>
    have hd : isPySpace d = false :=
      isDigit_not_space d (natDigits_all_digit idx d (hnd ▸ List.mem_cons_self d nd2))
    show sRight (sLeft ((d :: nd2) ++ ':' :: ' ' :: flat)) = (d :: nd2) ++ ':' :: ' ' :: flat
    rw [List.cons_append, sLeft_cons_false d (nd2 ++ ':' :: ' ' :: flat) hd,
      ← List.cons_append]
    have hdw : flat.reverse.dropWhile isPySpace = flat.reverse := by
      have h1 : sRight flat = flat := by
        rw [← hflat]
        exact sRight_pyStrip flat
      have h2 := congrArg List.reverse h1
      unfold sRight at h2
      rw [List.reverse_reverse] at h2
      exact h2
    unfold sRight
    have hrev : ((d :: nd2) ++ ':' :: ' ' :: flat).reverse =
        flat.reverse ++ (' ' :: ':' :: (d :: nd2).reverse) := by
      simp
    rw [hrev, List.dropWhile_append, hdw, if_neg (by
      simp only [List.isEmpty_iff, List.reverse_eq_nil_iff]
      exact hfc)]
    rw [← hrev, List.reverse_reverse]

theorem lineMatch_pyStrip_unit (idx : Nat) (flat : List Char)
    (hflat : pyStrip flat = flat) :
    lineMatch (pyStrip (natDigits idx ++ ':' :: ' ' :: flat)) = some (idx, flat) := by
  by_cases hfc : flat = []
  · subst hfc
    have hshape : natDigits idx ++ ':' :: ' ' :: ([] : List Char) =
        natDigits idx ++ [':', ' '] := rfl
    rw [hshape, pyStrip_line_of_nil idx]
    have hshape2 : natDigits idx ++ [':'] = natDigits idx ++ ':' :: ([] : List Char) := rfl
    rw [hshape2, lineMatch_digits_colon (natDigits idx) []
      (natDigits_all_digit idx) (natDigits_ne_nil idx), natOfDigits_natDigits]
    rfl
  · rw [pyStrip_line_of_cons idx flat hflat hfc,
      lineMatch_digits_colon (natDigits idx) (' ' :: flat)
        (natDigits_all_digit idx) (natDigits_ne_nil idx),
      natOfDigits_natDigits, List.dropWhile_cons_of_pos (by decide)]
    have hsl : flat.dropWhile isPySpace = flat := by
      have := sLeft_pyStrip flat
      rw [hflat] at this
      exact this
    rw [hsl, hflat]

theorem no_nl_flattenSrc (src : List Char) : '\n' ∉ flattenSrc src := by
  intro h
  have h2 := mem_pyStrip _ _ h
  obtain ⟨c, hc, he⟩ := List.mem_map.mp h2
  by_cases hcn : c = '\n'
  · rw [if_pos hcn] at he
    exact absurd he (by decide)
  · rw [if_neg hcn] at he
    exact hcn he

theorem no_cr_flattenSrc (src : List Char) (h : '\x0D' ∉ src) :
    '\x0D' ∉ flattenSrc src := by
  intro hm
  have h2 := mem_pyStrip _ _ hm
  obtain ⟨c, hc, he⟩ := List.mem_map.mp h2
  by_cases hcn : c = '\n'
  · rw [if_pos hcn] at he
    exact absurd he (by decide)
  · rw [if_neg hcn] at he
    exact h (he ▸ hc)

theorem no_nl_unit_line (u : TranslationUnit) :
    '\n' ∉ natDigits u.index ++ ':' :: ' ' :: flattenSrc u.src := by
  intro h
  rcases List.mem_append.mp h with h1 | h1
  · have := isDigit_not_space '\n' (natDigits_all_digit u.index '\n' h1)
    exact absurd this (by decide)
  · rcases List.mem_cons.mp h1 with h2 | h2
    · exact absurd h2 (by decide)
    · rcases List.mem_cons.mp h2 with h3 | h3
      · exact absurd h3 (by decide)
      · exact no_nl_flattenSrc u.src h3

theorem no_cr_unit_line (u : TranslationUnit) (hcr : '\x0D' ∉ u.src) :
    '\x0D' ∉ natDigits u.index ++ ':' :: ' ' :: flattenSrc u.src := by
  intro h
  rcases List.mem_append.mp h with h1 | h1
  · have := isDigit_not_space '\x0D' (natDigits_all_digit u.index '\x0D' h1)
    exact absurd this (by decide)
  · rcases List.mem_cons.mp h1 with h2 | h2
    · exact absurd h2 (by decide)
    · rcases List.mem_cons.mp h2 with h3 | h3
      · exact absurd h3 (by decide)
      · exact no_cr_flattenSrc u.src hcr h3

theorem filterMap_unit_lines :
    ∀ (vs : List TranslationUnit),
      (vs.map (fun u => natDigits u.index ++ ':' :: ' ' :: flattenSrc u.src)).filterMap
        (fun ln => lineMatch (pyStrip ln)) =
      vs.map (fun u => (u.index, flattenSrc u.src)) := by
  intro vs
  induction vs with
  | nil => rfl
  | cons v vs2 ih =>
    rw [List.map_cons, List.filterMap_cons,
      lineMatch_pyStrip_unit v.index (flattenSrc v.src) (pyStrip_idem _), ih,
      List.map_cons]

theorem matchedEntries_simulated (units : List TranslationUnit)
    (hcr : ∀ u ∈ units, '\x0D' ∉ u.src) :
    matchedEntries (simulatedReply units) =
      units.map (fun u => (u.index, flattenSrc u.src)) := by
  rcases List.eq_nil_or_concat units with hnil | ⟨us, ul, hcat⟩
  · subst hnil
    rfl
  · rw [List.concat_eq_append] at hcat
    subst hcat
    have hcrl : ∀ u ∈ us ++ [ul],
        '\x0D' ∉ natDigits u.index ++ ':' :: ' ' :: flattenSrc u.src :=
      fun u hu => no_cr_unit_line u (hcr u hu)
    have hnocr : '\x0D' ∉ simulatedReply (us ++ [ul]) := by
      intro hm
      unfold simulatedReply at hm
      rcases mem_joinNl _ _ hm with h1 | ⟨l, hl, hcl⟩
      · exact absurd h1 (by decide)
      · obtain ⟨u, hu, hlu⟩ := List.mem_map.mp hl
        exact hcrl u hu (hlu ▸ hcl)
    have hnorm : normalizeNl (simulatedReply (us ++ [ul])) =
        simulatedReply (us ++ [ul]) := normalizeNl_no_cr _ hnocr
    have hsleft : sLeft (simulatedReply (us ++ [ul])) =
        simulatedReply (us ++ [ul]) := by
      have hcons : ∃ (v : TranslationUnit) (vs : List TranslationUnit),
          us ++ [ul] = v :: vs := by
        cases us with
        | nil => exact ⟨ul, [], rfl⟩
        | cons u1 us2 => exact ⟨u1, us2 ++ [ul], rfl⟩
      obtain ⟨v, vs, hvvs⟩ := hcons
      rw [hvvs]
      unfold simulatedReply
      rw [List.map_cons]
      have hjoin : ∃ w, joinNl ((natDigits v.index ++ ':' :: ' ' :: flattenSrc v.src) ::
          vs.map (fun u => natDigits u.index ++ ':' :: ' ' :: flattenSrc u.src)) =
          (natDigits v.index ++ ':' :: ' ' :: flattenSrc v.src) ++ w := by
        match vs with
        | [] => exact ⟨[], by simp [joinNl]⟩
        | v2 :: vs2 =>
          refine ⟨'\n' :: joinNl ((v2 :: vs2).map
            (fun u => natDigits u.index ++ ':' :: ' ' :: flattenSrc u.src)), ?_⟩
          rw [joinNl_cons _ _ (by simp)]
      obtain ⟨w, hw⟩ := hjoin
      rw [hw]
      cases hnd : natDigits v.index with
      | nil => exact absurd hnd (natDigits_ne_nil v.index)
      | cons d nd2 =>
        have hd : isPySpace d = false :=
          isDigit_not_space d (natDigits_all_digit v.index d
            (hnd ▸ List.mem_cons_self d nd2))
        rw [List.cons_append, List.cons_append]
        exact sLeft_cons_false d _ hd
    cases hus : us with
    | nil =>
      rw [hus] at hnorm hsleft
      unfold matchedEntries
      rw [hnorm]
      show (splitOnChar '\n'
        (pyStrip (simulatedReply ([] ++ [ul])))).filterMap
          (fun ln => lineMatch (pyStrip ln)) = _
      have hrep : simulatedReply ([] ++ [ul]) =
          natDigits ul.index ++ ':' :: ' ' :: flattenSrc ul.src := rfl
      rw [hrep]
      have hnl2 : '\n' ∉ pyStrip (natDigits ul.index ++ ':' :: ' ' :: flattenSrc ul.src) :=
        fun hm => no_nl_unit_line ul (mem_pyStrip _ _ hm)
      rw [splitOnChar_no_sep _ '\n' hnl2, List.filterMap_cons,
        pyStrip_idem, lineMatch_pyStrip_unit ul.index (flattenSrc ul.src) (pyStrip_idem _)]
      rfl
    | cons u1 us2 =>
      rw [hus] at hnorm hsleft
      unfold matchedEntries
      rw [hnorm]
      have hmapAppend : (((u1 :: us2) ++ [ul]).map
          (fun u => natDigits u.index ++ ':' :: ' ' :: flattenSrc u.src)) =
          ((u1 :: us2).map (fun u => natDigits u.index ++ ':' :: ' ' :: flattenSrc u.src)) ++
            [natDigits ul.index ++ ':' :: ' ' :: flattenSrc ul.src] := by
        rw [List.map_append]
        rfl
      have hrep : simulatedReply ((u1 :: us2) ++ [ul]) =
          joinNl ((u1 :: us2).map (fun u => natDigits u.index ++ ':' :: ' ' :: flattenSrc u.src)) ++
            '\n' :: (natDigits ul.index ++ ':' :: ' ' :: flattenSrc ul.src) := by
        unfold simulatedReply
        rw [hmapAppend, joinNl_snoc _ _ (by simp)]
      have hcolon : ∃ c ∈ natDigits ul.index ++ ':' :: ' ' :: flattenSrc ul.src,
          isPySpace c = false :=
        ⟨':', List.mem_append_right _ (List.mem_cons_self _ _), by decide⟩
      have hstrip : pyStrip (simulatedReply ((u1 :: us2) ++ [ul])) =
          joinNl ((u1 :: us2).map (fun u => natDigits u.index ++ ':' :: ' ' :: flattenSrc u.src)) ++
            '\n' :: sRight (natDigits ul.index ++ ':' :: ' ' :: flattenSrc ul.src) := by
        have h1 : pyStrip (simulatedReply ((u1 :: us2) ++ [ul])) =
            sRight (simulatedReply ((u1 :: us2) ++ [ul])) := by
          show sRight (sLeft (simulatedReply ((u1 :: us2) ++ [ul]))) = _
          rw [hsleft]
        rw [h1, hrep, List.append_cons, sRight_append_keep _ _ hcolon,
          ← List.append_cons]
      rw [hstrip]
      have hsplit2 : splitOnChar '\n'
          (joinNl ((u1 :: us2).map (fun u => natDigits u.index ++ ':' :: ' ' :: flattenSrc u.src)) ++
            '\n' :: sRight (natDigits ul.index ++ ':' :: ' ' :: flattenSrc ul.src)) =
          ((u1 :: us2).map (fun u => natDigits u.index ++ ':' :: ' ' :: flattenSrc u.src)) ++
            [sRight (natDigits ul.index ++ ':' :: ' ' :: flattenSrc ul.src)] := by
        rw [← joinNl_snoc _ _ (by simp)]
        apply splitOnChar_joinNl
        · simp
        · intro l hl
          rcases List.mem_append.mp hl with h1 | h1
          · obtain ⟨u, hu, hlu⟩ := List.mem_map.mp h1
            rw [← hlu]
            exact no_nl_unit_line u
          · rcases List.mem_cons.mp h1 with h2 | h2
            · rw [h2]
              intro hm
              exact no_nl_unit_line ul (mem_sRight_sub _ _ hm)
            · simp at h2
      rw [hsplit2, List.filterMap_append, filterMap_unit_lines (u1 :: us2),
        List.filterMap_cons]
      rw [show lineMatch (pyStrip (sRight (natDigits ul.index ++ ':' :: ' ' :: flattenSrc ul.src))) =
          some (ul.index, flattenSrc ul.src) from by
        rw [pyStrip_sRight]
        exact lineMatch_pyStrip_unit ul.index (flattenSrc ul.src) (pyStrip_idem _)]
      rw [List.map_append]
      rfl

theorem lastValueOf_eq_none (k : Nat) (es : List (Nat × List Char))
    (h : ∀ e ∈ es, e.1 ≠ k) : lastValueOf k es = none := by
  cases h2 : lastValueOf k es with
  | none => rfl
  | some w =>
    exfalso
    obtain ⟨e, he, hk⟩ := (lastValueOf_isSome_iff k es).mp (by rw [h2]; rfl)
    exact h e he hk

theorem lastValueOf_map_units :
    ∀ (units : List TranslationUnit),
      (units.map (fun u => u.index)).Nodup →
      ∀ u ∈ units,
        lastValueOf u.index (units.map (fun v => (v.index, flattenSrc v.src))) =
          some (flattenSrc u.src) := by
  intro units
  induction units with
  | nil =>
    intro hnodup u hu
    simp at hu
  | cons v rest ih =>
    intro hnodup u hu
    rw [List.map_cons, List.nodup_cons] at hnodup
    obtain ⟨hvnot, hrest⟩ := hnodup
    rcases List.mem_cons.mp hu with h | h
    · subst h
      rw [List.map_cons]
      show (match lastValueOf u.index (rest.map (fun v => (v.index, flattenSrc v.src))) with
        | some w => some w
        | none => if u.index = u.index then some (flattenSrc u.src) else none) = _
      rw [lastValueOf_eq_none u.index _ (by
        intro e he hk
        obtain ⟨w, hw, hwe⟩ := List.mem_map.mp he
        apply hvnot
        rw [← hk, ← hwe]
        exact List.mem_map_of_mem _ hw)]
      rw [if_pos rfl]
    · rw [List.map_cons]
      show (match lastValueOf u.index (rest.map (fun v => (v.index, flattenSrc v.src))) with
        | some w => some w
        | none => if v.index = u.index then some (flattenSrc v.src) else none) = _
      rw [ih hrest u h]

/-- C1 (amended): codec round trip — for every list of units with
pairwise-distinct indices *whose source texts contain no carriage return*,
encoding with `build_user_payload` produces the boilerplate followed by one
newline-free `index TAB flattened-source` line per unit, and decoding the
simulated reply that echoes one `index: flattened-source` line per unit
yields a mapping that binds exactly the units' indices, each to the unit's
flattened source text. -/
theorem codec_roundtrip_no_cr (units : List TranslationUnit)
    (hnodup : (units.map (fun u => u.index)).Nodup)
    (hcr : ∀ u ∈ units, '\x0D' ∉ u.src) :
    (∀ u ∈ units, alookup u.index (parseModelOutput (simulatedReply units)) =
      some (flattenSrc u.src)) ∧
    (∀ k, (alookup k (parseModelOutput (simulatedReply units))).isSome = true ↔
      k ∈ units.map (fun u => u.index)) ∧
    (∀ u ∈ units, '\n' ∉ flattenSrc u.src) ∧
    buildUserPayload units = payloadHeader ++
      joinNl (units.map (fun u => natDigits u.index ++ '\t' :: flattenSrc u.src)) := by
  refine ⟨?_, ?_, fun u hu => no_nl_flattenSrc u.src, rfl⟩
  · intro u hu
    rw [parseModelOutput_lookup, matchedEntries_simulated units hcr]
    exact lastValueOf_map_units units hnodup u hu
  · intro k
    rw [parseModelOutput_lookup, matchedEntries_simulated units hcr,
      lastValueOf_isSome_iff]
    constructor
    · intro ⟨e, he, hk⟩
      obtain ⟨u, hu, hue⟩ := List.mem_map.mp he
      rw [← hk, ← hue]
      exact List.mem_map_of_mem _ hu
    · intro hk
      obtain ⟨u, hu, hue⟩ := List.mem_map.mp hk
      exact ⟨(u.index, flattenSrc u.src), List.mem_map_of_mem _ hu, hue⟩

/-- C1 counterexample to the claim as stated: a unit whose source contains
a bare carriage return. Its flattened source keeps the `CR`, but the decode
side normalises `CR` to a newline and splits the echoed line in two, so the
mapping binds the index to a different string than the flattened source. -/
theorem codec_roundtrip_claim_cex :
    (([⟨1, [], ['a', '\x0D', 'b'], []⟩] : List TranslationUnit).map
      (fun u => u.index)).Nodup ∧
    flattenSrc ['a', '\x0D', 'b'] = ['a', '\x0D', 'b'] ∧
    alookup 1 (parseModelOutput
      (simulatedReply [⟨1, [], ['a', '\x0D', 'b'], []⟩])) = some ['a'] ∧
    (['a'] : List Char) ≠ ['a', '\x0D', 'b'] := by decide

theorem codec_roundtrip_no_cr_witness :
    (([⟨1, [], ['h'], []⟩, ⟨2, [], ['x', 'y'], []⟩] : List TranslationUnit).map
      (fun u => u.index)).Nodup ∧
    (∀ u ∈ ([⟨1, [], ['h'], []⟩, ⟨2, [], ['x', 'y'], []⟩] : List TranslationUnit),
      '\x0D' ∉ u.src) ∧
    ((∀ u ∈ ([⟨1, [], ['h'], []⟩, ⟨2, [], ['x', 'y'], []⟩] : List TranslationUnit),
      alookup u.index (parseModelOutput
        (simulatedReply [⟨1, [], ['h'], []⟩, ⟨2, [], ['x', 'y'], []⟩])) =
        some (flattenSrc u.src)) ∧
     (∀ k, (alookup k (parseModelOutput
        (simulatedReply [⟨1, [], ['h'], []⟩, ⟨2, [], ['x', 'y'], []⟩]))).isSome = true ↔
        k ∈ ([⟨1, [], ['h'], []⟩, ⟨2, [], ['x', 'y'], []⟩] : List TranslationUnit).map
          (fun u => u.index)) ∧
     (∀ u ∈ ([⟨1, [], ['h'], []⟩, ⟨2, [], ['x', 'y'], []⟩] : List TranslationUnit),
      '\n' ∉ flattenSrc u.src) ∧
     buildUserPayload [⟨1, [], ['h'], []⟩, ⟨2, [], ['x', 'y'], []⟩] = payloadHeader ++
      joinNl (([⟨1, [], ['h'], []⟩, ⟨2, [], ['x', 'y'], []⟩] : List TranslationUnit).map
        (fun u => natDigits u.index ++ '\t' :: flattenSrc u.src))) :=
  ⟨by decide, by decide,
    codec_roundtrip_no_cr [⟨1, [], ['h'], []⟩, ⟨2, [], ['x', 'y'], []⟩]
      (by decide) (by decide)⟩

end Serve3
